import Mathlib

/-!
Verification development for the `poly-decomp-es` convex-decomposition library
(`src/poly-decomp-es.ts`).  Points are modelled as pairs of rationals,
polygons as lists of points; JavaScript's truncated remainder `%` is
modelled by `Int.tmod`, and out-of-bounds array reads (`undefined` in
JavaScript) by `Option`/default values as noted at each definition.
-/

namespace PolyDecomp

/-- A 2D point `[x, y]` (source: `type Point = [number, number]`). -/
abbrev Point : Type := ℚ × ℚ

/-- A polygon: an ordered list of vertices (source: `type Polygon = Point[]`). -/
abbrev Polygon : Type := List Point

/-- The zero point `[0, 0]`, the initial value of the scratch points used by
the source and the JavaScript default slot value. -/
def zeroPt : Point := (0, 0)

/-- Array read `l[n]` totalised with the zero point as default; each use site
below is in bounds (noted where relevant). -/
def nthP (l : List Point) (n : ℕ) : Point := (l.drop n).headD zeroPt

/-- `scalarsEqual(a, b, precision)`: `Math.abs(a - b) <= precision`. -/
def scalarsEqual (a b precision : ℚ) : Bool := decide (|a - b| ≤ precision)

/-- `pointsEqual(a, b, precision)`: componentwise `scalarsEqual`. -/
def pointsEqual (a b : Point) (precision : ℚ) : Bool :=
  scalarsEqual a.1 b.1 precision && scalarsEqual a.2 b.2 precision

/-- `triangleArea(a, b, c)`: twice the signed area of the triangle `a b c`. -/
def triangleArea (a b c : Point) : ℚ :=
  (b.1 - a.1) * (c.2 - a.2) - (c.1 - a.1) * (b.2 - a.2)

/-- `isLeft(a, b, c)`: `triangleArea(a, b, c) > 0`. -/
def isLeft (a b c : Point) : Bool := decide (0 < triangleArea a b c)

/-- `isLeftOn(a, b, c)`: `triangleArea(a, b, c) >= 0`. -/
def isLeftOn (a b c : Point) : Bool := decide (0 ≤ triangleArea a b c)

/-- `isRight(a, b, c)`: `triangleArea(a, b, c) < 0`. -/
def isRight (a b c : Point) : Bool := decide (triangleArea a b c < 0)

/-- `isRightOn(a, b, c)`: `triangleArea(a, b, c) <= 0`. -/
def isRightOn (a b c : Point) : Bool := decide (triangleArea a b c ≤ 0)

/-- `sqdist(a, b)`: squared euclidean distance. -/
def sqdist (a b : Point) : ℚ :=
  (b.1 - a.1) * (b.1 - a.1) + (b.2 - a.2) * (b.2 - a.2)

/-- The index computed by `polygonAt`:
`i < 0 ? (i % s) + s : i % s` with JavaScript's truncated remainder (`Int.tmod`). -/
def polygonAtIndex (s : ℕ) (i : ℤ) : ℤ :=
  if i < 0 then i.tmod s + s else i.tmod s

/-- `polygonAt(polygon, i)`: cyclic vertex read `polygon[idx]`.  A JavaScript
array read out of `[0, length)` yields `undefined`, modelled as `none`. -/
def polygonAt (polygon : Polygon) (i : ℤ) : Option Point :=
  let idx := polygonAtIndex polygon.length i
  if idx < 0 ∨ (polygon.length : ℤ) ≤ idx then none
  else some (nthP polygon idx.toNat)

/-- Totalised `polygonAt` with the zero point for the (never taken on the
in-bounds paths used by the algorithms) `undefined` case. -/
def polyAt (polygon : Polygon) (i : ℤ) : Point :=
  (polygonAt polygon i).getD zeroPt

/-- `Number.MAX_VALUE`, the largest double (`2^1024 - 2^971`, written out so
that it evaluates in constant depth), used as an "infinite" initial distance
by the source. -/
def numberMaxValue : ℚ := 179769313486231570814527423731704356798070567525844996598917476803157260780028538760589558632766878171540458953514382464234321326889464182768467546703537516986049910576551282076245490090389328944075868508455133942304583236903222948165808559332123348274797826204144723168738177180919299881250404026184124858368

/-- `polygonIsReflex(polygon, i)`: is the interior angle at cyclic vertex `i`
reflex, i.e. does `at(i-1), at(i), at(i+1)` turn right. -/
def polygonIsReflex (polygon : Polygon) (i : ℤ) : Bool :=
  isRight (polyAt polygon (i - 1)) (polyAt polygon i) (polyAt polygon (i + 1))

/-- The coefficients `(a, b, c)` of the line `a*x + b*y = c` through the two
points of `l`, as computed inside `lineInt` and `getIntersectionPoint`. -/
def lineCoeffs (l : Point × Point) : ℚ × ℚ × ℚ :=
  (l.2.2 - l.1.2, l.1.1 - l.2.1,
    (l.2.2 - l.1.2) * l.1.1 + (l.1.1 - l.2.1) * l.1.2)

/-- The determinant `a1*b2 - a2*b1` of the 2×2 system solved by `lineInt`. -/
def lineIntDet (l1 l2 : Point × Point) : ℚ :=
  (lineCoeffs l1).1 * (lineCoeffs l2).2.1 - (lineCoeffs l2).1 * (lineCoeffs l1).2.1

/-- `lineInt(l1, l2, precision)`: intersection of two infinite lines; the point
stays `[0, 0]` when the determinant is within `precision` of zero. -/
def lineInt (l1 l2 : Point × Point) (precision : ℚ) : Point :=
  let a1 := (lineCoeffs l1).1
  let b1 := (lineCoeffs l1).2.1
  let c1 := (lineCoeffs l1).2.2
  let a2 := (lineCoeffs l2).1
  let b2 := (lineCoeffs l2).2.1
  let c2 := (lineCoeffs l2).2.2
  let det := a1 * b2 - a2 * b1
  if scalarsEqual det 0 precision then zeroPt
  else ((b2 * c1 - b1 * c2) / det, (a1 * c2 - a2 * c1) / det)

/-- `lineSegmentsIntersect(p1, p2, q1, q2)`: parametric segment intersection
test; `false` for parallel segments. -/
def lineSegmentsIntersect (p1 p2 q1 q2 : Point) : Bool :=
  let dx := p2.1 - p1.1
  let dy := p2.2 - p1.2
  let da := q2.1 - q1.1
  let db := q2.2 - q1.2
  if da * dy - db * dx = 0 then false
  else
    let s := (dx * (q1.2 - p1.2) + dy * (p1.1 - q1.1)) / (da * dy - db * dx)
    let t := (da * (p1.2 - q1.2) + db * (q1.1 - p1.1)) / (db * dx - da * dy)
    decide (0 ≤ s ∧ s ≤ 1 ∧ 0 ≤ t ∧ t ≤ 1)

/-- `getIntersectionPoint(p1, p2, q1, q2, delta)`: same linear system as
`lineInt`, returning `[0, 0]` when the determinant is within `delta` of 0. -/
def getIntersectionPoint (p1 p2 q1 q2 : Point) (delta : ℚ) : Point :=
  let a1 := p2.2 - p1.2
  let b1 := p1.1 - p2.1
  let c1 := a1 * p1.1 + b1 * p1.2
  let a2 := q2.2 - q1.2
  let b2 := q1.1 - q2.1
  let c2 := a2 * q1.1 + b2 * q1.2
  let det := a1 * b2 - a2 * b1
  if ¬ scalarsEqual det 0 delta then
    ((b2 * c1 - b1 * c2) / det, (a1 * c2 - a2 * c1) / det)
  else zeroPt

/-- `polygonAppend(polygon, poly, from, to)`: append `poly[from..to-1]` onto
`polygon`.  All call sites have `to ≤ poly.length`, where the JavaScript loop
agrees with `take`/`drop`. -/
def polygonAppend (polygon poly : Polygon) (i j : ℕ) : Polygon :=
  polygon ++ (poly.drop i).take (j - i)

/-- `polygonCopy(polygon, i, j)` (always called with a cleared target): the
vertices from `i` to `j` inclusive, wrapping past the end when `i ≥ j`. -/
def polygonCopy (polygon : Polygon) (i j : ℕ) : Polygon :=
  if i < j then (polygon.drop i).take (j - i + 1)
  else polygon.take (j + 1) ++ polygon.drop i

/-- `polygonReverse(polygon)`: pops every vertex and writes the popped order
back, i.e. list reversal. -/
def polygonReverse (polygon : Polygon) : Polygon := polygon.reverse

/-- The strict "is a better bottom-right anchor" comparison from `makeCCW`:
`v[i][1] < v[br][1] || (v[i][1] === v[br][1] && v[i][0] > v[br][0])`. -/
def brBetter (p q : Point) : Bool := decide (p.2 < q.2 ∨ (p.2 = q.2 ∧ p.1 > q.1))

/-- The bottom-right anchor scan of `makeCCW`: the index of the first vertex
that is lowest, and among the lowest right-most. -/
def bottomRight (v : Polygon) : ℕ :=
  ((List.range v.length).drop 1).foldl
    (fun br i => if brBetter (nthP v i) (nthP v br) then i else br) 0

/-- `makeCCW(polygon)`: reverse the polygon when the turn at the bottom-right
anchor is not strictly left.  Returns the (returned flag, updated polygon)
pair; the source mutates in place and returns the flag. -/
def makeCCW (polygon : Polygon) : Bool × Polygon :=
  let br := bottomRight polygon
  if ¬ isLeft (polyAt polygon ((br : ℤ) - 1)) (polyAt polygon br)
      (polyAt polygon ((br : ℤ) + 1)) then
    (true, polygonReverse polygon)
  else (false, polygon)

/-- `polygonCanSee(polygon, a, b)`: visibility via a wedge test at `a` and a
line-distance blocking test against every non-incident edge. -/
def polygonCanSee (polygon : Polygon) (a b : ℕ) : Bool :=
  if isLeftOn (polyAt polygon ((a : ℤ) + 1)) (polyAt polygon a) (polyAt polygon b) &&
      isRightOn (polyAt polygon ((a : ℤ) - 1)) (polyAt polygon a) (polyAt polygon b) then
    false
  else
    let dist := sqdist (polyAt polygon a) (polyAt polygon b)
    (List.range polygon.length).all fun i =>
      if (i + 1) % polygon.length = a ∨ i = a then true
      else if isLeftOn (polyAt polygon a) (polyAt polygon b) (polyAt polygon ((i : ℤ) + 1)) &&
          isRightOn (polyAt polygon a) (polyAt polygon b) (polyAt polygon i) then
        let p := lineInt (polyAt polygon a, polyAt polygon b)
          (polyAt polygon i, polyAt polygon ((i : ℤ) + 1)) 0
        decide (¬ sqdist (polyAt polygon a) p < dist)
      else true

/-- `polygonCanSee2(polygon, a, b)`: visibility as a pure segment-intersection
test against every edge not incident (by raw index comparison) to `a` or `b`. -/
def polygonCanSee2 (polygon : Polygon) (a b : ℕ) : Bool :=
  (List.range polygon.length).all fun i =>
    if i = a ∨ i = b ∨ (i + 1) % polygon.length = a ∨ (i + 1) % polygon.length = b then
      true
    else
      ¬ lineSegmentsIntersect (polyAt polygon a) (polyAt polygon b)
        (polyAt polygon i) (polyAt polygon ((i : ℤ) + 1))

/-- One `(i, j)` step of the `getCutEdges` search, given the recursive results
`tmp1` for the two halves: keep `tmp1 ++ [edge]` when it beats the minimum. -/
def cutEdgesStep (s : List (Point × Point) × ℚ) (tmp1 : List (Point × Point))
    (edge : Point × Point) : List (Point × Point) × ℚ :=
  if (tmp1.length : ℚ) < s.2 then (tmp1 ++ [edge], (tmp1.length : ℚ)) else s

/-- `getCutEdges(polygon)`: the minimum-cardinality cut-edge list, searched
over every reflex vertex `i` and every visible vertex `j`.  The source
recursion has no structural bound, so it is driven by an explicit `fuel`
(the source recurses on strictly shorter polygons, so any
`fuel ≥ polygon.length` is enough); at fuel 0 the initial minimum `[]` is
returned. -/
def getCutEdgesF : ℕ → Polygon → List (Point × Point)
  | 0, _ => []
  | fuel + 1, polygon =>
    ((List.range polygon.length).foldl
      (fun s (i : ℕ) =>
        if polygonIsReflex polygon (i : ℤ) then
          (List.range polygon.length).foldl
            (fun s' (j : ℕ) =>
              if polygonCanSee polygon i j then
                cutEdgesStep s'
                  (getCutEdgesF fuel (polygonCopy polygon i j) ++
                    getCutEdgesF fuel (polygonCopy polygon j i))
                  (polyAt polygon i, polyAt polygon j)
              else s') s
        else s)
      ([], numberMaxValue)).1
termination_by structural fuel poly => fuel

/-- The single-edge branch of `slicePolygon`: locate both endpoints by
`indexOf` and split with two wrapped copies; `none` models the `false`
returned when an endpoint is not found. -/
def slicePolygonSingle (polygon : Polygon) (cutEdge : Point × Point) :
    Option (Polygon × Polygon) :=
  match polygon.indexOf? cutEdge.1, polygon.indexOf? cutEdge.2 with
  | some i, some j => some (polygonCopy polygon i j, polygonCopy polygon j i)
  | _, _ => none

/-- The scan inside the multi-edge branch of `slicePolygon`: slice the first
polygon of the list that the edge cuts (removing it and appending the two
halves at the end), `none` when no polygon is sliceable. -/
def sliceFirst (cutEdge : Point × Point) : List Polygon → Option (List Polygon)
  | [] => none
  | poly :: rest =>
    match slicePolygonSingle poly cutEdge with
    | some (p1, p2) => some (rest ++ [p1, p2])
    | none => (sliceFirst cutEdge rest).map (fun r => poly :: r)
termination_by structural l => l

/-- One edge of the multi-edge loop: the polygon list is unchanged when no
polygon of the list is sliceable by the edge. -/
def sliceOnce (polys : List Polygon) (cutEdge : Point × Point) : List Polygon :=
  (sliceFirst cutEdge polys).getD polys

/-- The multi-edge branch of `slicePolygon(polygon, cutEdges)`: apply the
edges one at a time starting from `[polygon]`.  This branch always returns a
list of polygons. -/
def slicePolygonMulti (polygon : Polygon) (cutEdges : List (Point × Point)) :
    List Polygon :=
  cutEdges.foldl sliceOnce [polygon]

/-- `decomp(polygon)`, with the fuel of `getCutEdgesF`: slice along the cut
edges when there are any, else return the polygon alone.  `none` models the
`false` of the return type `Polygon[] | false`. -/
def decompF (fuel : ℕ) (polygon : Polygon) : Option (List Polygon) :=
  let edges := getCutEdgesF fuel polygon
  if 0 < edges.length then some (slicePolygonMulti polygon edges)
  else some [polygon]

/-- `decomp(polygon)` with fuel `polygon.length` (enough for the source
recursion, which always recurses on strictly shorter polygons). -/
def decomp (polygon : Polygon) : Option (List Polygon) :=
  decompF polygon.length polygon

/-- `isSimple(polygon)`: no two checked edges intersect (the source skips the
pairs its loop bounds omit; this is the exact loop structure). -/
def isSimple (polygon : Polygon) : Bool :=
  ((List.range (polygon.length - 1)).all fun i =>
    (List.range (i - 1)).all fun j =>
      ¬ lineSegmentsIntersect (nthP polygon i) (nthP polygon (i + 1))
        (nthP polygon j) (nthP polygon (j + 1))) &&
  ((List.range' 1 (polygon.length - 3)).all fun i =>
    ¬ lineSegmentsIntersect (nthP polygon 0) (nthP polygon (polygon.length - 1))
      (nthP polygon i) (nthP polygon (i + 1)))

/-- The cross product `a.x * b.y - b.x * a.y` contributed by the directed
edge `a → b` to the shoelace sum. -/
def edgeCross (a b : Point) : ℚ := a.1 * b.2 - b.1 * a.2

/-- Sum of `edgeCross` over consecutive pairs of the list (no wrap-around). -/
def chainCross : List Point → ℚ
  | [] => 0
  | [_] => 0
  | a :: b :: t => edgeCross a b + chainCross (b :: t)
termination_by structural l => l

/-- Twice the signed area of a polygon: the open chain plus the closing edge. -/
def shoelace : Polygon → ℚ
  | [] => 0
  | a :: t => chainCross (a :: t) + edgeCross ((a :: t).getLast (by simp)) a

/-- Modelled from the spec: the signed area of a polygon ("the sum of the
signed areas of the returned pieces equals the area of P"), by the standard
shoelace formula.  The source has no polygon-area function; this is the
specification's measurement language. -/
def signedArea (polygon : Polygon) : ℚ := shoelace polygon / 2

/-- The scan state of `quickDecomp` at a reflex vertex: closest lower/upper
edge-extension intersections (`lowerDist/lowerInt/lowerIndex` etc.). -/
structure QDScan where
  lowerDist : ℚ
  lowerInt : Point
  lowerIndex : ℕ
  upperDist : ℚ
  upperInt : Point
  upperIndex : ℕ

/-- One iteration `j` of `quickDecomp`'s intersection scan at reflex vertex
`i`: the lower block followed by the upper block, each keeping the closest
valid intersection. -/
def qdScanStep (poly : Polygon) (i : ℕ) (s : QDScan) (j : ℕ) : QDScan :=
  let s1 :=
    if isLeft (polyAt poly ((i : ℤ) - 1)) (polyAt poly i) (polyAt poly j) &&
        isRightOn (polyAt poly ((i : ℤ) - 1)) (polyAt poly i) (polyAt poly ((j : ℤ) - 1)) then
      let p := getIntersectionPoint (polyAt poly ((i : ℤ) - 1)) (polyAt poly i)
        (polyAt poly j) (polyAt poly ((j : ℤ) - 1)) 0
      if isRight (polyAt poly ((i : ℤ) + 1)) (polyAt poly i) p then
        let d := sqdist (nthP poly i) p
        if d < s.lowerDist then { s with lowerDist := d, lowerInt := p, lowerIndex := j }
        else s
      else s
    else s
  if isLeft (polyAt poly ((i : ℤ) + 1)) (polyAt poly i) (polyAt poly ((j : ℤ) + 1)) &&
      isRightOn (polyAt poly ((i : ℤ) + 1)) (polyAt poly i) (polyAt poly j) then
    let p := getIntersectionPoint (polyAt poly ((i : ℤ) + 1)) (polyAt poly i)
      (polyAt poly j) (polyAt poly ((j : ℤ) + 1)) 0
    if isLeft (polyAt poly ((i : ℤ) - 1)) (polyAt poly i) p then
      let d := sqdist (nthP poly i) p
      if d < s1.upperDist then { s1 with upperDist := d, upperInt := p, upperIndex := j }
      else s1
    else s1
  else s1

/-- One iteration of `quickDecomp`'s closest-visible-vertex scan between the
lower and upper intersection indices (the scan index `j` may run past the
length; the stored index is `j % length`, exactly as in the source). -/
def qdClosestStep (poly : Polygon) (i : ℕ) (s : ℚ × ℕ) (j : ℕ) : ℚ × ℕ :=
  if isLeftOn (polyAt poly ((i : ℤ) - 1)) (polyAt poly i) (polyAt poly j) &&
      isRightOn (polyAt poly ((i : ℤ) + 1)) (polyAt poly i) (polyAt poly j) then
    let d := sqdist (polyAt poly i) (polyAt poly j)
    if decide (d < s.1) && polygonCanSee2 poly i j then (d, j % poly.length) else s
  else s

/-- The split computed by one `quickDecomp` invocation at its first reflex
vertex `i`: `some (lowerPoly, upperPoly, steiner?)`, or `none` on the
early `return result` path (`upperIndex < lowerIndex` after adjustment). -/
def qdBuild (poly : Polygon) (i : ℕ) : Option (Polygon × Polygon × Option Point) :=
  let s := (List.range poly.length).foldl (qdScanStep poly i)
    ⟨numberMaxValue, zeroPt, 0, numberMaxValue, zeroPt, 0⟩
  if s.lowerIndex = (s.upperIndex + 1) % poly.length then
    let p : Point := ((s.lowerInt.1 + s.upperInt.1) / 2, (s.lowerInt.2 + s.upperInt.2) / 2)
    if i < s.upperIndex then
      let lowerPoly := polygonAppend [] poly i (s.upperIndex + 1) ++ [p]
      let up1 := if s.lowerIndex ≠ 0 then polygonAppend [p] poly s.lowerIndex poly.length
        else [p]
      some (lowerPoly, polygonAppend up1 poly 0 (i + 1), some p)
    else
      let lo1 := if i ≠ 0 then polygonAppend [] poly i poly.length else []
      let lowerPoly := polygonAppend lo1 poly 0 (s.upperIndex + 1) ++ [p]
      some (lowerPoly, polygonAppend [p] poly s.lowerIndex (i + 1), some p)
  else
    let li := s.lowerIndex
    let ui := if s.lowerIndex > s.upperIndex then s.upperIndex + poly.length
      else s.upperIndex
    if ui < li then none
    else
      let c := (List.range' li (ui - li + 1)).foldl (qdClosestStep poly i)
        (numberMaxValue, 0)
      let ci := c.2
      if i < ci then
        let up1 := if ci ≠ 0 then polygonAppend [] poly ci poly.length else []
        some (polygonAppend [] poly i (ci + 1), polygonAppend up1 poly 0 (i + 1), none)
      else
        let lo1 := if i ≠ 0 then polygonAppend [] poly i poly.length else []
        some (polygonAppend lo1 poly 0 (ci + 1), polygonAppend [] poly ci (i + 1), none)

/-- The body of `quickDecomp`, made structural on `gas`.  Through the wrapper
`quickDecompRec`, `gas = maxlevel + 1 - level` at every call, so the `gas = 0`
equation coincides with the source's `level > maxlevel` early return (which is
also kept verbatim in the body, as the `maxlevel < level + 1` test).  The
accumulators `result`, `reflexVertices`, `steinerPoints` are threaded in place
of the source's in-place array pushes. -/
def qdrAux : ℕ → Polygon → List Polygon → List Point → List Point → ℚ → ℕ → ℕ →
    List Polygon × List Point × List Point
  | 0, _, result, reflexVertices, steinerPoints, _, _, _ =>
    (result, reflexVertices, steinerPoints)
  | gas + 1, polygon, result, reflexVertices, steinerPoints, delta, maxlevel, level =>
    if polygon.length < 3 then (result, reflexVertices, steinerPoints)
    else if maxlevel < level + 1 then (result, reflexVertices, steinerPoints)
    else
      match (List.range polygon.length).find? (fun (i : ℕ) => polygonIsReflex polygon (i : ℤ)) with
      | none => (result ++ [polygon], reflexVertices, steinerPoints)
      | some i =>
        let rv := reflexVertices ++ [nthP polygon i]
        match qdBuild polygon i with
        | none => (result, rv, steinerPoints)
        | some (lowerPoly, upperPoly, st) =>
          let sp := match st with
            | some q => steinerPoints ++ [q]
            | none => steinerPoints
          if lowerPoly.length < upperPoly.length then
            let t1 := qdrAux gas lowerPoly result rv sp delta maxlevel (level + 1)
            qdrAux gas upperPoly t1.1 t1.2.1 t1.2.2 delta maxlevel (level + 1)
          else
            let t1 := qdrAux gas upperPoly result rv sp delta maxlevel (level + 1)
            qdrAux gas lowerPoly t1.1 t1.2.1 t1.2.2 delta maxlevel (level + 1)
termination_by structural g a b c d e f h => g

/-- `quickDecomp(polygon, result, reflexVertices, steinerPoints, delta,
maxlevel, level)`: the recursion of the source, driven by the gas
`maxlevel + 1 - level` that its own depth guard bounds. -/
def quickDecompRec (polygon : Polygon) (result : List Polygon)
    (reflexVertices steinerPoints : List Point) (delta : ℚ)
    (maxlevel level : ℕ) : List Polygon × List Point × List Point :=
  qdrAux (maxlevel + 1 - level) polygon result reflexVertices steinerPoints
    delta maxlevel level

/-- `quickDecomp(polygon)` with the default arguments
(`result = []`, `reflexVertices = []`, `steinerPoints = []`, `delta = 25`,
`maxlevel = 100`, `level = 0`), projected to the returned `result`. -/
def quickDecomp (polygon : Polygon) : List Polygon :=
  (quickDecompRec polygon [] [] [] 25 100 0).1

/-- JavaScript `polygon.splice(i, 1)`: remove the element at index `i`
(a no-op when `i ≥ length`). -/
def spliceOne (l : List Point) (i : ℕ) : List Point := l.take i ++ l.drop (i + 1)

/-- The inner loop of `removeDuplicatePoints` at outer index `i` with the
captured point `p = polygon[i]`: fuel `j + 1` compares against index `j` and
splices at `i` on a match, continuing downwards. -/
def rdpInner (p : Point) (precision : ℚ) (i : ℕ) : List Point → ℕ → List Point
  | poly, 0 => poly
  | poly, j + 1 =>
    rdpInner p precision i
      (if pointsEqual p (nthP poly j) precision then spliceOne poly i else poly) j
termination_by structural poly j => j

/-- The outer loop of `removeDuplicatePoints`, counting `i` down to 1; the
captured `pi` of the source is `polygon[i]` read at the start of iteration
`i` (positions `≤ i` are untouched by the earlier, higher iterations). -/
def rdpOuter (precision : ℚ) : List Point → ℕ → List Point
  | poly, 0 => poly
  | poly, i + 1 =>
    rdpOuter precision (rdpInner (nthP poly (i + 1)) precision (i + 1) poly (i + 1)) i
termination_by structural poly i => i

/-- `removeDuplicatePoints(polygon, precision)` (the source mutates in place;
this returns the final list). -/
def removeDuplicatePoints (polygon : Polygon) (precision : ℚ) : Polygon :=
  rdpOuter precision polygon (polygon.length - 1)

/-- The unit square of the spec's concrete scenario. -/
def unitSquare : Polygon := [(0, 0), (1, 0), (1, 1), (0, 1)]

/-- The L-shaped hexagon of the spec's concrete scenario. -/
def lShape : Polygon := [(0, 0), (2, 0), (2, 1), (1, 1), (1, 2), (0, 2)]

/-- A clockwise-oriented triangle: a simple polygon whose vertices all turn
right. -/
def cwTriangle : Polygon := [(0, 0), (0, 1), (1, 0)]

/-- A degenerate polygon of three collinear vertices. -/
def collinearTriple : Polygon := [(0, 0), (1, 0), (2, 0)]

/-- A clockwise-oriented square. -/
def cwSquare : Polygon := [(0, 0), (0, 1), (1, 1), (1, 0)]

/-- The horizontal line `y = 1` given by two of its points. -/
def horizontalLine : Point × Point := ((0, 1), (1, 1))

/-- A polygon with a triplicated vertex followed by one unique vertex. -/
def dupQuad : Polygon := [(0, 0), (0, 0), (0, 0), (1, 1)]

/-- A two-vertex polygon. -/
def pairPoly : Polygon := [(0, 0), (1, 1)]

section Theorems

attribute [local semireducible] Rat.add Rat.sub Rat.mul Rat.inv

set_option maxRecDepth 2000

/-- For `i < 0` and `0 < n`, JavaScript's truncated remainder `i % n` lies in
`(-n, 0]`. -/
theorem tmod_neg_bounds (i n : ℤ) (hi : i < 0) (hn : 0 < n) :
    i.tmod n ≤ 0 ∧ -n < i.tmod n := by
  match i, hi with
  | Int.negSucc m, _ =>
    match n, hn with
    | Int.ofNat (k + 1), _ =>
      have h1 : (Int.negSucc m).tmod (Int.ofNat (k + 1)) = -Int.ofNat (m.succ % (k + 1)) :=
        rfl
      rw [h1]
      simp only [Int.ofNat_eq_coe]
      have h2 : m.succ % (k + 1) < k + 1 := Nat.mod_lt _ (Nat.succ_pos k)
      omega

/-- When the truncated remainder is strictly between `-n` and `0`, adding `n`
yields the euclidean remainder. -/
theorem tmod_add_eq_emod (i n : ℤ) (h2 : -n < i.tmod n) (h3 : i.tmod n < 0) :
    i.tmod n + n = i % n := by
  have h := Int.tdiv_add_tmod i n
  have h4 : i % n = (i.tmod n + n * i.tdiv n) % n := by
    rw [Int.add_comm, h]
  have h5 : (i.tmod n + n * 1) % n = (i.tmod n + n * i.tdiv n) % n := by
    rw [Int.add_mul_emod_self_left, Int.add_mul_emod_self_left]
  have h6 : (i.tmod n + n * 1) % n = i.tmod n + n * 1 :=
    Int.emod_eq_of_lt (by omega) (by omega)
  omega

/-- C2, counterexample: on the two-vertex polygon `[[0,0],[1,1]]` the read
`polygonAt(polygon, -2)` computes the index `(-2 % 2) + 2 = 2`, which is out
of bounds, so the lookup yields `undefined` (`none`) — refuting the claim
that the lookup is in bounds for every negative integer. -/
theorem polygonAt_undefined_at_negative_multiple : polygonAt pairPoly (-2) = none := by
  decide

/-- C2, amended: for a nonempty polygon, `polygonAt(polygon, i)` is the
in-bounds vertex at euclidean index `i mod n` for every nonnegative `i` and
every negative `i` not a multiple of `n`; at a negative multiple of `n` the
computed index is `n` itself, out of bounds, and the lookup yields
`undefined` (`none`). -/
theorem polygonAt_modulo_spec (poly : Polygon) (i : ℤ) (h : poly ≠ []) :
    ((0 ≤ i ∨ ¬ ((poly.length : ℤ) ∣ i)) →
      polygonAtIndex poly.length i = i % (poly.length : ℤ) ∧
      0 ≤ i % (poly.length : ℤ) ∧ i % (poly.length : ℤ) < poly.length ∧
      polygonAt poly i = some (nthP poly (i % (poly.length : ℤ)).toNat)) ∧
    (i < 0 → (poly.length : ℤ) ∣ i →
      polygonAtIndex poly.length i = (poly.length : ℤ) ∧ polygonAt poly i = none) := by
  have hn : 0 < poly.length := List.length_pos.mpr h
  have hn' : (0 : ℤ) < (poly.length : ℤ) := by exact_mod_cast hn
  have hnz : (poly.length : ℤ) ≠ 0 := by omega
  constructor
  · intro hcase
    have hidx : polygonAtIndex poly.length i = i % (poly.length : ℤ) := by
      unfold polygonAtIndex
      by_cases hneg : i < 0
      · rw [if_pos hneg]
        have hb := tmod_neg_bounds i poly.length hneg hn'
        have hne : i.tmod poly.length ≠ 0 := by
          intro h0
          rcases hcase with hpos | hndvd
          · omega
          · exact hndvd (Int.dvd_iff_tmod_eq_zero.mpr h0)
        exact tmod_add_eq_emod i _ (by omega) (by omega)
      · rw [if_neg hneg]
        exact Int.tmod_eq_emod (by omega) (by omega)
    have hlo : 0 ≤ i % (poly.length : ℤ) := Int.emod_nonneg i hnz
    have hhi : i % (poly.length : ℤ) < poly.length := Int.emod_lt_of_pos i hn'
    refine ⟨hidx, hlo, hhi, ?_⟩
    unfold polygonAt
    rw [hidx, if_neg (by omega)]
  · intro hneg hdvd
    have h0 : i.tmod poly.length = 0 := Int.dvd_iff_tmod_eq_zero.mp hdvd
    have hidx : polygonAtIndex poly.length i = (poly.length : ℤ) := by
      unfold polygonAtIndex
      rw [if_pos hneg, h0, zero_add]
    refine ⟨hidx, ?_⟩
    unfold polygonAt
    rw [hidx, if_pos (by omega)]

/-- C2, witness: the amended statement evaluated on the two-vertex polygon at
`i = -3` (in bounds, euclidean index 1) and `i = -2` (out of bounds). -/
theorem polygonAt_modulo_spec_witness :
    polygonAt pairPoly (-3) = some (nthP pairPoly ((-3 : ℤ) % (2 : ℤ)).toNat) ∧
    polygonAt pairPoly (-4) = none :=
  ⟨((polygonAt_modulo_spec pairPoly (-3) (by decide)).1 (Or.inr (by decide))).2.2.2,
   ((polygonAt_modulo_spec pairPoly (-4) (by decide)).2 (by decide) (by decide)).2⟩

/-- C6 (code bug): `removeDuplicatePoints` on `[[0,0],[0,0],[0,0],[1,1]]` with
precision 0 returns `[[0,0]]` — the vertex `[1,1]`, which coincides with no
other vertex, is removed (the inner `continue` keeps comparing the captured
point after a splice, so the second matching `j` splices out whatever vertex
shifted into position `i`). -/
theorem removeDuplicatePoints_removes_unique_vertex :
    removeDuplicatePoints dupQuad 0 = [((0 : ℚ), (0 : ℚ))] := by decide

/-- C9, counterexample: with the coincident lines `y = 1` (determinant 0) and
the negative precision `-1`, the determinant is not within precision of zero,
yet `lineInt` does not return a solution of the linear system (the computed
point `(0, 0)` fails the first line equation `0*x - 1*y = -1`) — refuting the
"otherwise returns the solution" half of the claim for that precision. -/
theorem lineInt_negative_precision_no_solution :
    ¬ |lineIntDet horizontalLine horizontalLine| ≤ (-1 : ℚ) ∧
    (lineCoeffs horizontalLine).1 * (lineInt horizontalLine horizontalLine (-1)).1 +
        (lineCoeffs horizontalLine).2.1 * (lineInt horizontalLine horizontalLine (-1)).2 ≠
      (lineCoeffs horizontalLine).2.2 := by
  constructor
  · decide
  · decide

/-- C9, amended: for every *nonnegative* precision, `lineInt` returns `(0,0)`
when the determinant is within `precision` of zero, and otherwise returns the
exact solution of the 2×2 linear system of the two lines. -/
theorem lineInt_spec (l1 l2 : Point × Point) (precision : ℚ) (hp : 0 ≤ precision) :
    (|lineIntDet l1 l2| ≤ precision → lineInt l1 l2 precision = zeroPt) ∧
    (¬ |lineIntDet l1 l2| ≤ precision →
      (lineCoeffs l1).1 * (lineInt l1 l2 precision).1 +
          (lineCoeffs l1).2.1 * (lineInt l1 l2 precision).2 = (lineCoeffs l1).2.2 ∧
      (lineCoeffs l2).1 * (lineInt l1 l2 precision).1 +
          (lineCoeffs l2).2.1 * (lineInt l1 l2 precision).2 = (lineCoeffs l2).2.2) := by
  have hdet : lineIntDet l1 l2 =
      (lineCoeffs l1).1 * (lineCoeffs l2).2.1 - (lineCoeffs l2).1 * (lineCoeffs l1).2.1 :=
    rfl
  constructor
  · intro hle
    unfold lineInt
    rw [if_pos]
    unfold scalarsEqual
    simp only [decide_eq_true_eq, sub_zero]
    rw [← hdet]
    exact hle
  · intro hgt
    have hne : (lineCoeffs l1).1 * (lineCoeffs l2).2.1 -
        (lineCoeffs l2).1 * (lineCoeffs l1).2.1 ≠ 0 := by
      rw [← hdet]
      intro h0
      exact hgt (by rw [h0]; simpa using hp)
    have hcond : scalarsEqual
        ((lineCoeffs l1).1 * (lineCoeffs l2).2.1 - (lineCoeffs l2).1 * (lineCoeffs l1).2.1)
        0 precision = false := by
      unfold scalarsEqual
      simp only [decide_eq_false_iff_not, sub_zero]
      rw [← hdet]
      exact hgt
    have hval : lineInt l1 l2 precision =
        (((lineCoeffs l2).2.1 * (lineCoeffs l1).2.2 -
            (lineCoeffs l1).2.1 * (lineCoeffs l2).2.2) /
          ((lineCoeffs l1).1 * (lineCoeffs l2).2.1 - (lineCoeffs l2).1 * (lineCoeffs l1).2.1),
         ((lineCoeffs l1).1 * (lineCoeffs l2).2.2 -
            (lineCoeffs l2).1 * (lineCoeffs l1).2.2) /
          ((lineCoeffs l1).1 * (lineCoeffs l2).2.1 - (lineCoeffs l2).1 * (lineCoeffs l1).2.1)) := by
      unfold lineInt
      rw [if_neg]
      rw [hcond]
      exact Bool.false_ne_true
    rw [hval]
    constructor
    · field_simp
      ring
    · field_simp
      ring

/-- C9, witness: the amended statement evaluated at two crossing axis lines
with precision 0 (solution branch) and at coincident lines (sentinel branch). -/
theorem lineInt_spec_witness :
    (¬ |lineIntDet (((0:ℚ),(0:ℚ)), ((1:ℚ),(0:ℚ))) (((0:ℚ),(0:ℚ)), ((0:ℚ),(1:ℚ)))| ≤ 0 →
      (lineCoeffs (((0:ℚ),(0:ℚ)), ((1:ℚ),(0:ℚ)))).1 *
          (lineInt (((0:ℚ),(0:ℚ)), ((1:ℚ),(0:ℚ))) (((0:ℚ),(0:ℚ)), ((0:ℚ),(1:ℚ))) 0).1 +
          (lineCoeffs (((0:ℚ),(0:ℚ)), ((1:ℚ),(0:ℚ)))).2.1 *
          (lineInt (((0:ℚ),(0:ℚ)), ((1:ℚ),(0:ℚ))) (((0:ℚ),(0:ℚ)), ((0:ℚ),(1:ℚ))) 0).2 =
        (lineCoeffs (((0:ℚ),(0:ℚ)), ((1:ℚ),(0:ℚ)))).2.2 ∧
      (lineCoeffs (((0:ℚ),(0:ℚ)), ((0:ℚ),(1:ℚ)))).1 *
          (lineInt (((0:ℚ),(0:ℚ)), ((1:ℚ),(0:ℚ))) (((0:ℚ),(0:ℚ)), ((0:ℚ),(1:ℚ))) 0).1 +
          (lineCoeffs (((0:ℚ),(0:ℚ)), ((0:ℚ),(1:ℚ)))).2.1 *
          (lineInt (((0:ℚ),(0:ℚ)), ((1:ℚ),(0:ℚ))) (((0:ℚ),(0:ℚ)), ((0:ℚ),(1:ℚ))) 0).2 =
        (lineCoeffs (((0:ℚ),(0:ℚ)), ((0:ℚ),(1:ℚ)))).2.2) ∧
    (|lineIntDet horizontalLine horizontalLine| ≤ 0 →
      lineInt horizontalLine horizontalLine 0 = zeroPt) :=
  ⟨(lineInt_spec (((0:ℚ),(0:ℚ)), ((1:ℚ),(0:ℚ))) (((0:ℚ),(0:ℚ)), ((0:ℚ),(1:ℚ))) 0 le_rfl).2,
   (lineInt_spec horizontalLine horizontalLine 0 le_rfl).1⟩

/-- A fold whose step keeps the state unchanged whenever the test is false
leaves the state unchanged when the test is false on the whole list. -/
theorem foldl_if_false {α β : Type} (p : β → Bool) (f : α → β → α) :
    ∀ (l : List β) (s : α), (∀ i ∈ l, p i = false) →
      l.foldl (fun s i => if p i then f s i else s) s = s := by
  intro l
  induction l with
  | nil => intro s _; rfl
  | cons a t ih =>
    intro s h
    have ha : p a = false := h a (List.mem_cons_self a t)
    rw [List.foldl_cons, ha, if_neg Bool.false_ne_true]
    exact ih s (fun i hi => h i (List.mem_cons_of_mem a hi))

/-- A polygon with no reflex vertex has no first reflex vertex. -/
theorem find_reflex_eq_none (poly : Polygon)
    (hconv : ∀ i < poly.length, polygonIsReflex poly (i : ℤ) = false) :
    (List.range poly.length).find? (fun (i : ℕ) => polygonIsReflex poly (i : ℤ)) = none := by
  apply List.find?_eq_none.mpr
  intro i hi
  simp only [List.mem_range] at hi
  simp [hconv i hi]

/-- On a polygon of at least 3 vertices with no reflex vertex, one step of the
`quickDecomp` recursion (below the depth guard) appends the polygon whole and
touches no accumulator. -/
theorem qdrAux_convex (g : ℕ) (poly : Polygon) (result : List Polygon)
    (rv sp : List Point) (delta : ℚ) (ml lv : ℕ)
    (h3 : 3 ≤ poly.length) (hlv : lv + 1 ≤ ml)
    (hconv : ∀ i < poly.length, polygonIsReflex poly (i : ℤ) = false) :
    qdrAux (g + 1) poly result rv sp delta ml lv = (result ++ [poly], rv, sp) := by
  rw [qdrAux]
  rw [if_neg (by omega), if_neg (by omega), find_reflex_eq_none poly hconv]

/-- C3 (confirmed): for every convex polygon (no reflex vertex; a polygon has
at least 3 vertices per the spec's data model), `quickDecomp` with the default
arguments returns exactly `[P]`, records no reflex vertex, performs no split
and pushes nothing onto the `steinerPoints` accumulator. -/
theorem quickDecomp_convex (poly : Polygon) (h3 : 3 ≤ poly.length)
    (hconv : ∀ i < poly.length, polygonIsReflex poly (i : ℤ) = false) :
    quickDecompRec poly [] [] [] 25 100 0 = ([poly], [], []) := by
  show qdrAux (100 + 1) poly [] [] [] 25 100 0 = ([poly], [], [])
  rw [qdrAux_convex 100 poly [] [] [] 25 100 0 h3 (by omega) hconv]
  rfl

/-- C3, witness: the unit square. -/
theorem quickDecomp_convex_witness :
    quickDecompRec unitSquare [] [] [] 25 100 0 = ([unitSquare], [], []) :=
  quickDecomp_convex unitSquare (by decide) (by decide)

/-- C4 (confirmed): for every polygon with no reflex vertex, `getCutEdges`
returns the empty list and `decomp` returns `[P]` (for every fuel); and
concretely `decomp` and `quickDecomp` on the square `[[0,0],[1,0],[1,1],[0,1]]`
both return `[[[0,0],[1,0],[1,1],[0,1]]]`. -/
theorem decomp_convex_identity :
    (∀ (fuel : ℕ) (poly : Polygon),
      (∀ i < poly.length, polygonIsReflex poly (i : ℤ) = false) →
      getCutEdgesF fuel poly = [] ∧ decompF fuel poly = some [poly]) ∧
    decomp unitSquare = some [unitSquare] ∧ quickDecomp unitSquare = [unitSquare] := by
  refine ⟨?_, by decide, by decide⟩
  intro fuel poly hconv
  have hedges : getCutEdgesF fuel poly = [] := by
    cases fuel with
    | zero => rfl
    | succ n =>
      rw [getCutEdgesF]
      rw [foldl_if_false (fun (i : ℕ) => polygonIsReflex poly (i : ℤ)) _ _ _
        (fun i hi => hconv i (List.mem_range.mp hi))]
  refine ⟨hedges, ?_⟩
  unfold decompF
  rw [hedges]
  simp

/-- C4, witness: the universal part evaluated on the unit square. -/
theorem decomp_convex_identity_witness :
    getCutEdgesF 4 unitSquare = [] ∧ decompF 4 unitSquare = some [unitSquare] :=
  decomp_convex_identity.1 4 unitSquare (by decide)

/-- The `delta` argument is dead in the `quickDecomp` recursion: it is passed
along but never consulted (in particular `getIntersectionPoint` is always
called without it, i.e. with 0). -/
theorem qdrAux_delta_irrelevant (gas : ℕ) :
    ∀ (poly : Polygon) (result : List Polygon) (rv sp : List Point)
      (d1 d2 : ℚ) (ml lv : ℕ),
      qdrAux gas poly result rv sp d1 ml lv = qdrAux gas poly result rv sp d2 ml lv := by
  induction gas with
  | zero => intro poly result rv sp d1 d2 ml lv; rfl
  | succ g ih =>
    intro poly result rv sp d1 d2 ml lv
    simp only [qdrAux]
    split
    · rfl
    split
    · rfl
    split
    · rfl
    rename_i i _
    split
    · rfl
    rename_i lowerPoly upperPoly st _
    cases st with
    | none =>
      dsimp only
      split
      · rw [ih lowerPoly result (rv ++ [nthP poly i]) sp d1 d2 ml (lv + 1)]
        exact ih upperPoly _ _ _ d1 d2 ml (lv + 1)
      · rw [ih upperPoly result (rv ++ [nthP poly i]) sp d1 d2 ml (lv + 1)]
        exact ih lowerPoly _ _ _ d1 d2 ml (lv + 1)
    | some q =>
      dsimp only
      split
      · rw [ih lowerPoly result (rv ++ [nthP poly i]) (sp ++ [q]) d1 d2 ml (lv + 1)]
        exact ih upperPoly _ _ _ d1 d2 ml (lv + 1)
      · rw [ih upperPoly result (rv ++ [nthP poly i]) (sp ++ [q]) d1 d2 ml (lv + 1)]
        exact ih lowerPoly _ _ _ d1 d2 ml (lv + 1)

/-- C10 (confirmed): the value of `delta` never influences `quickDecomp`'s
output — for any two deltas and otherwise equal arguments, the returned
`result`, `reflexVertices` and `steinerPoints` are identical. -/
theorem quickDecomp_delta_irrelevant (poly : Polygon) (result : List Polygon)
    (rv sp : List Point) (d1 d2 : ℚ) (ml lv : ℕ) :
    quickDecompRec poly result rv sp d1 ml lv = quickDecompRec poly result rv sp d2 ml lv :=
  qdrAux_delta_irrelevant (ml + 1 - lv) poly result rv sp d1 d2 ml lv

/-- `decompF` returns a polygon list in both of its branches. -/
theorem decompF_isSome (fuel : ℕ) (poly : Polygon) : decompF fuel poly ≠ none := by
  unfold decompF
  dsimp only
  split <;> simp

/-- C5, counterexample: a cut edge with an endpoint absent from the polygon
makes the single-edge slice report failure, yet `decomp` on that polygon
returns a list of polygons, not the failure value.  The `false` of the
single-edge slice is swallowed by the multi-edge loop `decomp` actually uses,
which skips an edge it cannot place and carries on. -/
theorem decomp_never_false :
    slicePolygonSingle pairPoly (((5 : ℚ), (5 : ℚ)), ((0 : ℚ), (0 : ℚ))) = none ∧
    decompF 2 pairPoly = some [pairPoly] := by
  constructor
  · decide
  · decide

/-- C5, amended: the single-edge `slicePolygon` does report `false` (`none`)
when a cut-edge endpoint cannot be located, but `decomp` itself never
propagates it: `decomp` always returns a list of polygons. -/
theorem slice_failure_contained :
    (∀ (poly : Polygon) (e : Point × Point),
      poly.indexOf? e.1 = none ∨ poly.indexOf? e.2 = none →
      slicePolygonSingle poly e = none) ∧
    (∀ (fuel : ℕ) (poly : Polygon), decompF fuel poly ≠ none) := by
  constructor
  · intro poly e h
    rcases h with h | h
    · unfold slicePolygonSingle
      rw [h]
    · unfold slicePolygonSingle
      rw [h]
      cases poly.indexOf? e.1 <;> rfl
  · exact fun fuel poly => decompF_isSome fuel poly

/-- C5, witness: a missing endpoint makes the single-edge slice fail on the
two-vertex polygon, while `decomp` on it still returns a list. -/
theorem slice_failure_contained_witness :
    slicePolygonSingle pairPoly (((5 : ℚ), (5 : ℚ)), ((0 : ℚ), (0 : ℚ))) = none ∧
    decompF 2 pairPoly ≠ none :=
  ⟨slice_failure_contained.1 pairPoly (((5 : ℚ), (5 : ℚ)), ((0 : ℚ), (0 : ℚ)))
      (Or.inl (by decide)),
   slice_failure_contained.2 2 pairPoly⟩

/-- Every polygon in the result of the `quickDecomp` recursion either was in
the incoming accumulator or was appended by the terminal convex case, i.e.
has no reflex vertex. -/
theorem qdrAux_pieces_reflex_free (gas : ℕ) :
    ∀ (poly : Polygon) (result : List Polygon) (rv sp : List Point) (d : ℚ)
      (ml lv : ℕ) (q : Polygon), q ∈ (qdrAux gas poly result rv sp d ml lv).1 →
      q ∈ result ∨ ∀ i < q.length, polygonIsReflex q (i : ℤ) = false := by
  induction gas with
  | zero => intro poly result rv sp d ml lv q hq; exact Or.inl hq
  | succ g ih =>
    intro poly result rv sp d ml lv q hq
    rw [qdrAux] at hq
    split at hq
    · exact Or.inl hq
    split at hq
    · exact Or.inl hq
    split at hq
    · rename_i hfind
      rcases List.mem_append.mp hq with hmem | hmem
      · exact Or.inl hmem
      · refine Or.inr ?_
        have hqpoly : q = poly := List.mem_singleton.mp hmem
        subst hqpoly
        intro i hi
        have := List.find?_eq_none.mp hfind i (List.mem_range.mpr hi)
        simpa using this
    rename_i i _
    split at hq
    · exact Or.inl hq
    rename_i lowerPoly upperPoly st _
    cases st with
    | none =>
      dsimp only at hq
      split at hq
      · rcases ih _ _ _ _ _ _ _ _ hq with h1 | h1
        · rcases ih _ _ _ _ _ _ _ _ h1 with h2 | h2
          · exact Or.inl h2
          · exact Or.inr h2
        · exact Or.inr h1
      · rcases ih _ _ _ _ _ _ _ _ hq with h1 | h1
        · rcases ih _ _ _ _ _ _ _ _ h1 with h2 | h2
          · exact Or.inl h2
          · exact Or.inr h2
        · exact Or.inr h1
    | some s =>
      dsimp only at hq
      split at hq
      · rcases ih _ _ _ _ _ _ _ _ hq with h1 | h1
        · rcases ih _ _ _ _ _ _ _ _ h1 with h2 | h2
          · exact Or.inl h2
          · exact Or.inr h2
        · exact Or.inr h1
      · rcases ih _ _ _ _ _ _ _ _ hq with h1 | h1
        · rcases ih _ _ _ _ _ _ _ _ h1 with h2 | h2
          · exact Or.inl h2
          · exact Or.inr h2
        · exact Or.inr h1

/-- The cross product of a point with itself vanishes. -/
theorem edgeCross_self (a : Point) : edgeCross a a = 0 := by
  unfold edgeCross; ring

/-- Swapping the arguments of `edgeCross` negates it. -/
theorem edgeCross_swap (a b : Point) : edgeCross b a = -edgeCross a b := by
  unfold edgeCross; ring

/-- Splitting the open chain sum at an interior element. -/
theorem chainCross_append (y : Point) (ys : List Point) :
    ∀ xs : List Point,
      chainCross (xs ++ y :: ys) = chainCross (xs ++ [y]) + chainCross (y :: ys) := by
  intro xs
  induction xs with
  | nil => simp [chainCross]
  | cons a xs ih =>
    cases xs with
    | nil =>
      show chainCross (a :: y :: ys) = chainCross [a, y] + chainCross (y :: ys)
      show edgeCross a y + chainCross (y :: ys) =
        (edgeCross a y + chainCross [y]) + chainCross (y :: ys)
      show edgeCross a y + chainCross (y :: ys) =
        (edgeCross a y + 0) + chainCross (y :: ys)
      ring
    | cons b xs' =>
      have h1 : chainCross ((a :: b :: xs') ++ y :: ys) =
          edgeCross a b + chainCross ((b :: xs') ++ y :: ys) := rfl
      have h2 : chainCross ((a :: b :: xs') ++ [y]) =
          edgeCross a b + chainCross ((b :: xs') ++ [y]) := rfl
      rw [h1, h2, ih]
      ring

/-- `shoelace` via the total head/last defaults (the defaults only appear on
the empty list, where both sides are 0). -/
theorem shoelace_eq_chain (l : List Point) :
    shoelace l = chainCross l + edgeCross (l.getLastD zeroPt) (l.headD zeroPt) := by
  cases l with
  | nil =>
    show (0 : ℚ) = 0 + edgeCross zeroPt zeroPt
    rw [edgeCross_self]
    ring
  | cons a t =>
    unfold shoelace
    have hlast : (a :: t).getLastD zeroPt = (a :: t).getLast (by simp) := by
      rw [List.getLastD_eq_getLast?, List.getLast?_eq_getLast (a :: t) (by simp)]
      rfl
    rw [hlast]
    rfl

/-- The default-valued last element of a list ending in a fixed nonempty
suffix does not depend on the prefix. -/
theorem getLastD_append_cons (w : List Point) (y : Point) (t : List Point) :
    (w ++ y :: t).getLastD zeroPt = (y :: t).getLastD zeroPt := by
  rw [List.getLastD_eq_getLast?, List.getLastD_eq_getLast?,
    List.getLast?_append_of_ne_nil w (by simp)]

/-- The default-valued head of `u ++ x :: r` does not depend on `r`. -/
theorem headD_append_cons (u : List Point) (x : Point) (r r' : List Point) :
    (u ++ x :: r).headD zeroPt = (u ++ x :: r').headD zeroPt := by
  cases u <;> rfl

/-- The shoelace diagonal identity: cutting the closed polygon
`u ++ x :: m ++ y :: t` along the diagonal `x – y` into the two closed pieces
`x :: m ++ [y]` and `u ++ x :: y :: t` preserves the total (twice-)signed
area. -/
theorem shoelace_diagonal_split (u m t : List Point) (x y : Point) :
    shoelace (x :: (m ++ [y])) + shoelace (u ++ x :: y :: t) =
      shoelace (u ++ x :: (m ++ y :: t)) := by
  rw [shoelace_eq_chain, shoelace_eq_chain, shoelace_eq_chain]
  have hA : chainCross (x :: (m ++ [y])) = chainCross ((x :: m) ++ [y]) := rfl
  have hBc : chainCross (u ++ x :: y :: t) =
      chainCross (u ++ [x]) + chainCross [x, y] + chainCross (y :: t) := by
    rw [List.append_cons u x (y :: t), chainCross_append y t (u ++ [x]),
      ← List.append_cons u x [y], chainCross_append x [y] u]
  have hPc : chainCross (u ++ x :: (m ++ y :: t)) =
      chainCross (u ++ [x]) + (chainCross ((x :: m) ++ [y]) + chainCross (y :: t)) := by
    rw [chainCross_append x (m ++ y :: t) u]
    have : chainCross (x :: (m ++ y :: t)) = chainCross ((x :: m) ++ y :: t) := rfl
    rw [this, chainCross_append y t (x :: m)]
  have hchainxy : chainCross [x, y] = edgeCross x y := by
    show edgeCross x y + chainCross [y] = edgeCross x y
    show edgeCross x y + 0 = edgeCross x y
    ring
  have hlastA : (x :: (m ++ [y])).getLastD zeroPt = y := by
    have : x :: (m ++ [y]) = (x :: m) ++ y :: [] := rfl
    rw [this, getLastD_append_cons]
    rfl
  have hheadA : (x :: (m ++ [y])).headD zeroPt = x := rfl
  have hlastB : (u ++ x :: y :: t).getLastD zeroPt = (y :: t).getLastD zeroPt := by
    rw [List.append_cons u x (y :: t), getLastD_append_cons]
  have hlastP : (u ++ x :: (m ++ y :: t)).getLastD zeroPt = (y :: t).getLastD zeroPt := by
    have : u ++ x :: (m ++ y :: t) = (u ++ x :: m) ++ y :: t := by
      simp
    rw [this, getLastD_append_cons]
  have hheadBP : (u ++ x :: y :: t).headD zeroPt = (u ++ x :: (m ++ y :: t)).headD zeroPt :=
    headD_append_cons u x (y :: t) (m ++ y :: t)
  rw [hA, hBc, hPc, hchainxy, hlastA, hheadA, hlastB, hlastP, hheadBP,
    edgeCross_swap y x]
  ring

/-- Dropping to an in-bounds index exposes the element there. -/
theorem drop_eq_nthP_cons (l : List Point) (n : ℕ) (h : n < l.length) :
    l.drop n = nthP l n :: l.drop (n + 1) := by
  have hne : l.drop n ≠ [] := by
    rw [ne_eq, List.drop_eq_nil_iff]
    omega
  cases hd : l.drop n with
  | nil => exact absurd hd hne
  | cons a t =>
    have h1 : nthP l n = a := by
      unfold nthP
      rw [hd]
      rfl
    have h2 : l.drop (n + 1) = t := by
      rw [← List.tail_drop, hd]
      rfl
    rw [h1, h2]

/-- Taking one element of an in-bounds drop. -/
theorem take_one_drop (l : List Point) (n : ℕ) (h : n < l.length) :
    (l.drop n).take 1 = [nthP l n] := by
  rw [drop_eq_nthP_cons l n h]
  rfl

/-- The structure of the two `polygonCopy` halves of a cut at `i < j`:
the polygon splits as `u ++ x :: (m ++ y :: t)` with `x`, `y` the cut
vertices, the contiguous half is `x :: (m ++ [y])` and the wrapped half is
`(u ++ [x]) ++ y :: t`. -/
theorem polygonCopy_split (poly : Polygon) (i j : ℕ) (hij : i < j) (hj : j < poly.length) :
    poly = poly.take i ++ nthP poly i ::
        ((poly.drop (i + 1)).take (j - i - 1) ++ nthP poly j :: poly.drop (j + 1)) ∧
    polygonCopy poly i j =
      nthP poly i :: ((poly.drop (i + 1)).take (j - i - 1) ++ [nthP poly j]) ∧
    polygonCopy poly j i =
      (poly.take i ++ [nthP poly i]) ++ nthP poly j :: poly.drop (j + 1) := by
  have hi : i < poly.length := lt_trans hij hj
  have hdi : poly.drop i = nthP poly i :: poly.drop (i + 1) := drop_eq_nthP_cons poly i hi
  have hdj : poly.drop j = nthP poly j :: poly.drop (j + 1) := drop_eq_nthP_cons poly j hj
  have hmid : poly.drop (i + 1) =
      (poly.drop (i + 1)).take (j - i - 1) ++ poly.drop j := by
    conv_lhs => rw [← List.take_append_drop (j - i - 1) (poly.drop (i + 1))]
    congr 1
    rw [List.drop_drop]
    congr 1
    omega
  refine ⟨?_, ?_, ?_⟩
  · conv_lhs => rw [← List.take_append_drop i poly, hdi, hmid, hdj]
  · unfold polygonCopy
    rw [if_pos hij, hdi]
    have harith : j - i + 1 = (j - i - 1 + 1) + 1 := by omega
    rw [harith, List.take_succ_cons]
    congr 1
    conv_lhs => rw [hmid]
    rw [List.take_append_eq_append_take]
    have hlenM : ((poly.drop (i + 1)).take (j - i - 1)).length = j - i - 1 := by
      rw [List.length_take, List.length_drop]
      omega
    rw [hlenM]
    have htakeM : ((poly.drop (i + 1)).take (j - i - 1)).take (j - i - 1 + 1) =
        (poly.drop (i + 1)).take (j - i - 1) := by
      apply List.take_of_length_le
      rw [hlenM]
      omega
    rw [htakeM]
    congr 1
    have : j - i - 1 + 1 - (j - i - 1) = 1 := by omega
    rw [this]
    exact take_one_drop poly j hj
  · unfold polygonCopy
    rw [if_neg (by omega), hdj]
    congr 1
    have : i + 1 = i + 1 := rfl
    rw [show i + 1 = i + 1 from rfl, List.take_add]
    congr 1
    exact take_one_drop poly i hi

/-- Slicing a polygon along a diagonal between two distinct indices preserves
the total shoelace sum. -/
theorem polygonCopy_area (poly : Polygon) (i j : ℕ) (hi : i < poly.length)
    (hj : j < poly.length) (hij : i < j) :
    shoelace (polygonCopy poly i j) + shoelace (polygonCopy poly j i) = shoelace poly := by
  obtain ⟨h1, h2, h3⟩ := polygonCopy_split poly i j hij hj
  rw [h2, h3, ← List.append_cons (poly.take i) (nthP poly i)]
  conv_rhs => rw [h1]
  exact shoelace_diagonal_split (poly.take i) _ _ _ _

/-- A successful `indexOf?` returns an in-bounds index of an occurrence. -/
theorem indexOf?_spec (a : Point) :
    ∀ (l : Polygon) (i : ℕ), l.indexOf? a = some i → i < l.length ∧ nthP l i = a := by
  intro l
  induction l with
  | nil => intro i h; simp at h
  | cons b t ih =>
    intro i h
    rw [List.indexOf?_cons] at h
    by_cases hba : b = a
    · rw [if_pos (beq_iff_eq.mpr hba)] at h
      have h0 : i = 0 := (Option.some_inj.mp h).symm
      subst h0
      exact ⟨Nat.succ_pos _, hba⟩
    · rw [if_neg (by simpa using hba)] at h
      rcases Option.map_eq_some'.mp h with ⟨i', hi', hsucc⟩
      obtain ⟨hlt, hval⟩ := ih i' hi'
      subst hsucc
      refine ⟨by simpa using Nat.succ_lt_succ hlt, ?_⟩
      unfold nthP at hval ⊢
      simpa using hval

/-- The single-edge slice of a cut edge with distinct endpoints preserves the
shoelace sum of the two halves. -/
theorem slicePolygonSingle_area (poly : Polygon) (e : Point × Point)
    (hne : e.1 ≠ e.2) (p1 p2 : Polygon)
    (h : slicePolygonSingle poly e = some (p1, p2)) :
    shoelace p1 + shoelace p2 = shoelace poly := by
  unfold slicePolygonSingle at h
  cases h1 : poly.indexOf? e.1 with
  | none => rw [h1] at h; cases h2 : poly.indexOf? e.2 <;> rw [h2] at h <;> simp at h
  | some i =>
    cases h2 : poly.indexOf? e.2 with
    | none => rw [h1, h2] at h; simp at h
    | some j =>
      rw [h1, h2] at h
      obtain ⟨hiL, hiv⟩ := indexOf?_spec e.1 poly i h1
      obtain ⟨hjL, hjv⟩ := indexOf?_spec e.2 poly j h2
      have hij : i ≠ j := by
        intro hEq
        apply hne
        rw [← hiv, ← hjv, hEq]
      have hp1 : p1 = polygonCopy poly i j := by
        have := Option.some_inj.mp h
        exact (congrArg Prod.fst this).symm
      have hp2 : p2 = polygonCopy poly j i := by
        have := Option.some_inj.mp h
        exact (congrArg Prod.snd this).symm
      subst hp1
      subst hp2
      rcases Nat.lt_or_ge i j with hlt | hge
      · exact polygonCopy_area poly i j hiL hjL hlt
      · have hlt : j < i := by omega
        rw [add_comm]
        exact polygonCopy_area poly j i hjL hiL hlt

/-- `sliceFirst` preserves the total shoelace sum of the polygon list. -/
theorem sliceFirst_area (e : Point × Point) (hne : e.1 ≠ e.2) :
    ∀ (polys polys' : List Polygon), sliceFirst e polys = some polys' →
      (polys'.map shoelace).sum = (polys.map shoelace).sum := by
  intro polys
  induction polys with
  | nil => intro polys' h; simp [sliceFirst] at h
  | cons poly rest ih =>
    intro polys' h
    rw [sliceFirst] at h
    cases hs : slicePolygonSingle poly e with
    | some pr =>
      rw [hs] at h
      have h' : polys' = rest ++ [pr.1, pr.2] := by
        cases pr
        simpa using (Option.some_inj.mp h).symm
      subst h'
      have harea : shoelace pr.1 + shoelace pr.2 = shoelace poly :=
        slicePolygonSingle_area poly e hne pr.1 pr.2 (by rw [hs])
      simp only [List.map_append, List.sum_append, List.map_cons, List.sum_cons,
        List.map_nil, List.sum_nil]
      rw [← harea]
      ring
    | none =>
      rw [hs] at h
      rcases Option.map_eq_some'.mp h with ⟨r, hr, hcons⟩
      subst hcons
      simp only [List.map_cons, List.sum_cons]
      rw [ih r hr]

/-- `sliceOnce` preserves the total shoelace sum. -/
theorem sliceOnce_area (polys : List Polygon) (e : Point × Point) (hne : e.1 ≠ e.2) :
    ((sliceOnce polys e).map shoelace).sum = (polys.map shoelace).sum := by
  unfold sliceOnce
  cases hs : sliceFirst e polys with
  | none => rfl
  | some r => exact sliceFirst_area e hne polys r hs

/-- The multi-edge slicing loop preserves the total shoelace sum when every
edge has distinct endpoints. -/
theorem sliceFold_area :
    ∀ (edges : List (Point × Point)) (polys : List Polygon),
      (∀ e ∈ edges, e.1 ≠ e.2) →
      ((edges.foldl sliceOnce polys).map shoelace).sum = (polys.map shoelace).sum := by
  intro edges
  induction edges with
  | nil => intro polys _; rfl
  | cons e rest ih =>
    intro polys h
    rw [List.foldl_cons, ih (sliceOnce polys e) (fun e' he' => h e' (List.mem_cons_of_mem e he')),
      sliceOnce_area polys e (h e (List.mem_cons_self e rest))]

/-- A fold preserves any invariant its step preserves. -/
theorem foldl_preserve {α β : Type} (P : α → Prop) (f : α → β → α)
    (hf : ∀ s b, P s → P (f s b)) :
    ∀ (l : List β) (s : α), P s → P (l.foldl f s) := by
  intro l
  induction l with
  | nil => intro s hs; exact hs
  | cons b t ih => intro s hs; exact ih (f s b) (hf s b hs)

/-- A visible pair of vertices has distinct coordinates: if `at(b)` equalled
`at(a)`, the wedge pre-test of `canSee` would reject (both orientation tests
degenerate to zero area). -/
theorem polygonCanSee_ne (poly : Polygon) (a b : ℕ)
    (h : polygonCanSee poly a b = true) :
    polyAt poly (a : ℤ) ≠ polyAt poly (b : ℤ) := by
  intro hEq
  unfold polygonCanSee at h
  rw [if_pos] at h
  · exact Bool.false_ne_true h
  · rw [← hEq]
    have h1 : triangleArea (polyAt poly ((a : ℤ) + 1)) (polyAt poly (a : ℤ))
        (polyAt poly (a : ℤ)) = 0 := by
      unfold triangleArea; ring
    have h2 : triangleArea (polyAt poly ((a : ℤ) - 1)) (polyAt poly (a : ℤ))
        (polyAt poly (a : ℤ)) = 0 := by
      unfold triangleArea; ring
    simp [isLeftOn, isRightOn, h1, h2]

/-- Every edge produced by `getCutEdges` has distinct endpoints (visibility
rejects coincident vertices). -/
theorem getCutEdgesF_ne (fuel : ℕ) : ∀ (poly : Polygon) (e : Point × Point),
    e ∈ getCutEdgesF fuel poly → e.1 ≠ e.2 := by
  induction fuel with
  | zero =>
    intro poly e h
    simp [getCutEdgesF] at h
  | succ n ih =>
    intro poly e he
    rw [getCutEdgesF] at he
    refine foldl_preserve (fun (s : List (Point × Point) × ℚ) => ∀ e' ∈ s.1, e'.1 ≠ e'.2)
      _ ?_ (List.range poly.length) ([], numberMaxValue) (by simp) e he
    intro s i hs
    dsimp only
    split
    · refine foldl_preserve (fun (s' : List (Point × Point) × ℚ) => ∀ e' ∈ s'.1, e'.1 ≠ e'.2)
        _ ?_ (List.range poly.length) s hs
      intro s' j hs'
      dsimp only
      split
      · rename_i hsee
        unfold cutEdgesStep
        split
        · intro e' he'
          rcases List.mem_append.mp he' with h1 | h1
          · rcases List.mem_append.mp h1 with h2 | h2
            · exact ih _ _ h2
            · exact ih _ _ h2
          · have he'' : e' = (polyAt poly (i : ℤ), polyAt poly (j : ℤ)) :=
              List.mem_singleton.mp h1
            subst he''
            exact polygonCanSee_ne poly i j hsee
        · exact hs'
      · exact hs'
    · exact hs

/-- The sum of the signed piece areas is half the sum of the shoelace values. -/
theorem map_signedArea_sum (ps : List Polygon) :
    (ps.map signedArea).sum = (ps.map shoelace).sum / 2 := by
  induction ps with
  | nil => simp
  | cons q t ih =>
    simp only [List.map_cons, List.sum_cons, ih, signedArea]
    ring

/-- `decomp` preserves the total shoelace value for every polygon and fuel. -/
theorem decompF_area (fuel : ℕ) (poly : Polygon) (ps : List Polygon)
    (h : decompF fuel poly = some ps) : (ps.map shoelace).sum = shoelace poly := by
  unfold decompF at h
  dsimp only at h
  split at h
  · have hps : ps = slicePolygonMulti poly (getCutEdgesF fuel poly) :=
      (Option.some_inj.mp h).symm
    subst hps
    unfold slicePolygonMulti
    rw [sliceFold_area (getCutEdgesF fuel poly) [poly]
      (fun e he => getCutEdgesF_ne fuel poly e he)]
    simp
  · have hps : ps = [poly] := (Option.some_inj.mp h).symm
    subst hps
    simp

/-- C1, counterexample: the clockwise triangle is a simple polygon
(`isSimple` holds and its area is nonzero), yet `decomp` returns it as its
single piece with vertex 0 a right turn (not convex in the claim's
left-or-straight sense), and `quickDecomp` returns the empty list, whose
total signed area 0 differs from the triangle's. -/
theorem decompose_claims_counterexample :
    isSimple cwTriangle = true ∧ decomp cwTriangle = some [cwTriangle] ∧
    polygonIsReflex cwTriangle 0 = true ∧ quickDecomp cwTriangle = [] ∧
    signedArea cwTriangle ≠ 0 :=
  ⟨by decide, by decide, by decide, by decide, by decide⟩

/-- C1, amended: the halves of the claim the counterexample leaves intact, for
every polygon: every polygon in the list returned by `quickDecomp` is convex
(no vertex triple turns right), and the sum of the signed areas of the pieces
returned by `decomp` equals the signed area of the input polygon. -/
theorem decompose_convex_area :
    (∀ (poly q : Polygon), q ∈ quickDecomp poly →
      ∀ i < q.length, polygonIsReflex q (i : ℤ) = false) ∧
    (∀ (fuel : ℕ) (poly : Polygon) (ps : List Polygon), decompF fuel poly = some ps →
      (ps.map signedArea).sum = signedArea poly) := by
  constructor
  · intro poly q hq i hi
    rcases qdrAux_pieces_reflex_free (100 + 1 - 0) poly [] [] [] 25 100 0 q hq with h | h
    · simp at h
    · exact h i hi
  · intro fuel poly ps h
    rw [map_signedArea_sum, decompF_area fuel poly ps h, signedArea]

/-- C1, witness: the amended statement evaluated on the unit square. -/
theorem decompose_convex_area_witness :
    polygonIsReflex unitSquare ((0 : ℕ) : ℤ) = false ∧
    ([unitSquare].map signedArea).sum = signedArea unitSquare :=
  ⟨decompose_convex_area.1 unitSquare unitSquare (by decide) 0 (by decide),
   decompose_convex_area.2 4 unitSquare [unitSquare] (by decide)⟩

/-- A splice keeps the prefix below the splice position. -/
theorem spliceOne_take (l : List Point) (i : ℕ) : (spliceOne l i).take i = l.take i := by
  unfold spliceOne
  rw [List.take_append_eq_append_take, List.take_take, Nat.min_self]
  by_cases hc : l.length ≤ i
  · have h2 : l.drop (i + 1) = [] := List.drop_eq_nil_of_le (by omega)
    rw [h2]
    simp
  · have h2 : i - (l.take i).length = 0 := by
      rw [List.length_take]
      omega
    rw [h2]
    simp

/-- A splice drops one element of the suffix at the splice position. -/
theorem spliceOne_drop (l : List Point) (i : ℕ) :
    (spliceOne l i).drop i = (l.drop i).drop 1 := by
  unfold spliceOne
  rw [List.drop_append_eq_append_drop]
  by_cases hc : l.length ≤ i
  · have h1 : l.take i = l := List.take_of_length_le hc
    have h2 : l.drop (i + 1) = [] := List.drop_eq_nil_of_le (by omega)
    have h3 : l.drop i = [] := List.drop_eq_nil_of_le hc
    rw [h1, h2, h3]
    simp
  · have h1 : (l.take i).drop i = [] := by
      apply List.drop_eq_nil_of_le
      rw [List.length_take]
      omega
    have h2 : i - (l.take i).length = 0 := by
      rw [List.length_take]
      omega
    rw [h1, h2, List.drop_drop]
    simp

/-- The inner duplicate-removal loop only changes positions at or above the
splice position `i`. -/
theorem rdpInner_take (p : Point) (prec : ℚ) (i : ℕ) :
    ∀ (j : ℕ) (poly : List Point), (rdpInner p prec i poly j).take i = poly.take i := by
  intro j
  induction j with
  | zero => intro poly; rfl
  | succ j ih =>
    intro poly
    rw [rdpInner]
    by_cases hc : pointsEqual p (nthP poly j) prec = true
    · rw [hc, if_pos rfl, ih, spliceOne_take]
    · rw [Bool.not_eq_true] at hc
      rw [hc, if_neg Bool.false_ne_true, ih]

/-- The inner duplicate-removal loop either changes nothing (and then the
captured point matched no compared position) or drops `k ≥ 1` elements from
the suffix at the splice position. -/
theorem rdpInner_cases (p : Point) (prec : ℚ) (i : ℕ) :
    ∀ (j : ℕ) (poly : List Point),
      (rdpInner p prec i poly j = poly ∧
        ∀ j' < j, pointsEqual p (nthP poly j') prec = false) ∨
      (∃ k, 1 ≤ k ∧ (rdpInner p prec i poly j).drop i = (poly.drop i).drop k) := by
  intro j
  induction j with
  | zero => intro poly; exact Or.inl ⟨rfl, by omega⟩
  | succ j ih =>
    intro poly
    rw [rdpInner]
    by_cases hc : pointsEqual p (nthP poly j) prec = true
    · rw [hc, if_pos rfl]
      rcases ih (spliceOne poly i) with ⟨heq, _⟩ | ⟨k, hk, hdrop⟩
      · refine Or.inr ⟨1, le_rfl, ?_⟩
        rw [heq, spliceOne_drop]
      · refine Or.inr ⟨k + 1, by omega, ?_⟩
        rw [hdrop, spliceOne_drop]
        simp only [List.drop_drop]
        congr 1
        omega
    · rw [Bool.not_eq_true] at hc
      rw [hc, if_neg Bool.false_ne_true]
      rcases ih poly with ⟨heq, hno⟩ | hk
      · refine Or.inl ⟨heq, ?_⟩
        intro j' hj'
        rcases Nat.lt_or_ge j' j with h | h
        · exact hno j' h
        · have : j' = j := by omega
          subst this
          exact hc
      · exact Or.inr hk

/-- The head default of a nonempty take agrees with the head default. -/
theorem headD_take (xs : List Point) (m : ℕ) (hm : 1 ≤ m) :
    (xs.take m).headD zeroPt = xs.headD zeroPt := by
  cases xs with
  | nil => simp
  | cons a t =>
    cases m with
    | zero => omega
    | succ m' => rfl

/-- Positions below an equal prefix have equal reads. -/
theorem nthP_congr_take (l l' : List Point) (i j : ℕ) (hj : j < i)
    (h : l.take i = l'.take i) : nthP l j = nthP l' j := by
  unfold nthP
  rw [← headD_take (l.drop j) (i - j) (by omega),
    ← headD_take (l'.drop j) (i - j) (by omega),
    ← List.drop_take i j l, ← List.drop_take i j l', h]

/-- Reads at or above a common drop position translate by the drop offset. -/
theorem nthP_of_drop_eq (R poly : List Point) (c k q : ℕ)
    (h : R.drop c = poly.drop (c + k)) (hq : c ≤ q) :
    nthP R q = nthP poly (q + k) ∧ (q < R.length → q + k < poly.length) := by
  have hdropq : R.drop q = poly.drop (q + k) := by
    have h1 : R.drop q = (R.drop c).drop (q - c) := by
      rw [List.drop_drop]
      congr 1
      omega
    rw [h1, h, List.drop_drop]
    congr 1
    omega
  constructor
  · unfold nthP
    rw [hdropq]
  · intro hlen
    have hne : R.drop q ≠ [] := by
      rw [ne_eq, List.drop_eq_nil_iff]
      omega
    rw [hdropq, ne_eq, List.drop_eq_nil_iff] at hne
    omega

/-- One outer iteration of `removeDuplicatePoints` preserves the invariant
"no position above the counter matches any earlier position". -/
theorem rdp_step_inv (prec : ℚ) (i : ℕ) (poly : List Point)
    (hinv : ∀ q j, i + 1 < q → j < q → q < poly.length →
      pointsEqual (nthP poly q) (nthP poly j) prec = false) :
    ∀ q j, i < q → j < q →
      q < (rdpInner (nthP poly (i + 1)) prec (i + 1) poly (i + 1)).length →
      pointsEqual (nthP (rdpInner (nthP poly (i + 1)) prec (i + 1) poly (i + 1)) q)
        (nthP (rdpInner (nthP poly (i + 1)) prec (i + 1) poly (i + 1)) j) prec = false := by
  intro q j hq hj hlen
  rcases rdpInner_cases (nthP poly (i + 1)) prec (i + 1) (i + 1) poly with
    ⟨heq, hno⟩ | ⟨k, hk, hdrop⟩
  · rw [heq] at hlen ⊢
    rcases Nat.lt_or_ge (i + 1) q with hq2 | hq2
    · exact hinv q j hq2 hj hlen
    · have hqc : q = i + 1 := by omega
      subst hqc
      exact hno j (by omega)
  · have htake := rdpInner_take (nthP poly (i + 1)) prec (i + 1) (i + 1) poly
    have hdrop' : (rdpInner (nthP poly (i + 1)) prec (i + 1) poly (i + 1)).drop (i + 1) =
        poly.drop ((i + 1) + k) := by
      rw [hdrop, List.drop_drop]
    obtain ⟨hqv, hqb⟩ := nthP_of_drop_eq _ poly (i + 1) k q hdrop' (by omega)
    have hqk : q + k < poly.length := hqb hlen
    rw [hqv]
    rcases Nat.lt_or_ge j (i + 1) with hj2 | hj2
    · have hjv : nthP (rdpInner (nthP poly (i + 1)) prec (i + 1) poly (i + 1)) j =
          nthP poly j := nthP_congr_take _ poly (i + 1) j hj2 htake
      rw [hjv]
      exact hinv (q + k) j (by omega) (by omega) hqk
    · obtain ⟨hjv, _⟩ := nthP_of_drop_eq _ poly (i + 1) k j hdrop' hj2
      rw [hjv]
      exact hinv (q + k) (j + k) (by omega) (by omega) hqk

/-- After running the outer loop from counter `i`, no surviving position
above 0 matches any earlier surviving position. -/
theorem rdpOuter_inv (prec : ℚ) :
    ∀ (i : ℕ) (poly : List Point),
      (∀ q j, i < q → j < q → q < poly.length →
        pointsEqual (nthP poly q) (nthP poly j) prec = false) →
      ∀ q j, 0 < q → j < q → q < (rdpOuter prec poly i).length →
        pointsEqual (nthP (rdpOuter prec poly i) q)
          (nthP (rdpOuter prec poly i) j) prec = false := by
  intro i
  induction i with
  | zero => intro poly hinv q j hq hj hlen; exact hinv q j hq hj hlen
  | succ i ih =>
    intro poly hinv
    rw [rdpOuter]
    exact ih _ (rdp_step_inv prec i poly hinv)

/-- The list returned by `removeDuplicatePoints` has no two positions that
`pointsEqual` identifies (beyond position 0 as the earlier one of a pair,
which is never the later element of any comparison). -/
theorem removeDuplicatePoints_noDup (poly : Polygon) (prec : ℚ) :
    ∀ q j, 0 < q → j < q → q < (removeDuplicatePoints poly prec).length →
      pointsEqual (nthP (removeDuplicatePoints poly prec) q)
        (nthP (removeDuplicatePoints poly prec) j) prec = false := by
  unfold removeDuplicatePoints
  exact rdpOuter_inv prec (poly.length - 1) poly (by intro q j h1 h2 h3; omega)

/-- The inner loop does nothing when the captured point matches no compared
position. -/
theorem rdpInner_id (p : Point) (prec : ℚ) (i : ℕ) :
    ∀ (j : ℕ) (poly : List Point),
      (∀ j' < j, pointsEqual p (nthP poly j') prec = false) →
      rdpInner p prec i poly j = poly := by
  intro j
  induction j with
  | zero => intro poly _; rfl
  | succ j ih =>
    intro poly h
    rw [rdpInner, h j (by omega), if_neg Bool.false_ne_true]
    exact ih poly (fun j' hj' => h j' (by omega))

/-- The outer loop does nothing on a list with no matching pair. -/
theorem rdpOuter_id (prec : ℚ) (T : List Point)
    (hnd : ∀ q j, 0 < q → j < q → q < T.length →
      pointsEqual (nthP T q) (nthP T j) prec = false) :
    ∀ i, i ≤ T.length - 1 → rdpOuter prec T i = T := by
  intro i
  induction i with
  | zero => intro _; rfl
  | succ i ih =>
    intro hle
    have hq : i + 1 < T.length := by omega
    rw [rdpOuter, rdpInner_id (nthP T (i + 1)) prec (i + 1) (i + 1) T
      (fun j' hj' => hnd (i + 1) j' (by omega) hj' hq)]
    exact ih (by omega)

/-- C7 (confirmed): `removeDuplicatePoints` is idempotent — the first pass
leaves no pair that `pointsEqual` identifies at a later position, so a second
pass changes nothing. -/
theorem removeDuplicatePoints_idempotent (poly : Polygon) (prec : ℚ) :
    removeDuplicatePoints (removeDuplicatePoints poly prec) prec =
      removeDuplicatePoints poly prec := by
  have h := removeDuplicatePoints_noDup poly prec
  unfold removeDuplicatePoints
  exact rdpOuter_id prec (removeDuplicatePoints poly prec) h
    ((removeDuplicatePoints poly prec).length - 1) le_rfl

/-- A triangle with two equal vertices has zero area. -/
theorem triangleArea_degenerate (a b : Point) : triangleArea a b b = 0 := by
  unfold triangleArea; ring

/-- Reversing the outer vertices of a triangle negates its area. -/
theorem triangleArea_rev (a b c : Point) : triangleArea c b a = -triangleArea a b c := by
  unfold triangleArea; ring

/-- The bottom-right comparison is irreflexive. -/
theorem brBetter_irrefl (p : Point) : brBetter p p = false := by
  unfold brBetter
  simp

/-- The bottom-right comparison is transitive. -/
theorem brBetter_trans (a b c : Point) (h1 : brBetter a b = true)
    (h2 : brBetter b c = true) : brBetter a c = true := by
  unfold brBetter at h1 h2 ⊢
  simp only [decide_eq_true_eq] at h1 h2 ⊢
  rcases h1 with h1 | ⟨h1e, h1x⟩ <;> rcases h2 with h2 | ⟨h2e, h2x⟩
  · exact Or.inl (lt_trans h1 h2)
  · exact Or.inl (h2e ▸ h1)
  · exact Or.inl (h1e ▸ h2)
  · exact Or.inr ⟨h1e.trans h2e, lt_trans h2x h1x⟩

/-- If `a` is not better than `b` but is better than `c`, then `b` is better
than `c`. -/
theorem brBetter_neg_trans (a b c : Point) (h1 : brBetter a b = false)
    (h2 : brBetter a c = true) : brBetter b c = true := by
  unfold brBetter at h1 h2 ⊢
  simp only [decide_eq_false_iff_not, decide_eq_true_eq] at h1 h2 ⊢
  push_neg at h1
  obtain ⟨hba, hbax⟩ := h1
  rcases h2 with h2 | ⟨h2e, h2x⟩
  · exact Or.inl (lt_of_le_of_lt hba h2)
  · rcases lt_or_eq_of_le hba with hlt | heq
    · exact Or.inl (h2e ▸ hlt)
    · refine Or.inr ⟨heq.trans h2e, ?_⟩
      exact lt_of_lt_of_le h2x (hbax heq.symm)

/-- The `makeCCW` anchor fold produces its seed or a member of the scanned
list. -/
theorem brFold_mem (v : Polygon) :
    ∀ (l : List ℕ) (acc : ℕ),
      (l.foldl (fun br i => if brBetter (nthP v i) (nthP v br) then i else br) acc) = acc ∨
      (l.foldl (fun br i => if brBetter (nthP v i) (nthP v br) then i else br) acc) ∈ l := by
  intro l
  induction l with
  | nil => intro acc; exact Or.inl rfl
  | cons b t ih =>
    intro acc
    rw [List.foldl_cons]
    rcases ih (if brBetter (nthP v b) (nthP v acc) then b else acc) with h | h
    · rw [h]
      split
      · exact Or.inr (List.mem_cons_self b t)
      · exact Or.inl rfl
    · exact Or.inr (List.mem_cons_of_mem b h)

/-- No scanned vertex, nor the seed, is strictly better than the anchor the
`makeCCW` fold returns. -/
theorem brFold_opt (v : Polygon) :
    ∀ (l : List ℕ) (acc : ℕ),
      brBetter (nthP v acc)
        (nthP v (l.foldl (fun br i => if brBetter (nthP v i) (nthP v br) then i else br) acc)) =
        false ∧
      ∀ k ∈ l,
        brBetter (nthP v k)
          (nthP v (l.foldl (fun br i => if brBetter (nthP v i) (nthP v br) then i else br) acc)) =
          false := by
  intro l
  induction l with
  | nil =>
    intro acc
    exact ⟨brBetter_irrefl _, by intro k hk; simp at hk⟩
  | cons b t ih =>
    intro acc
    rw [List.foldl_cons]
    by_cases hba : brBetter (nthP v b) (nthP v acc) = true
    · rw [hba, if_pos rfl]
      obtain ⟨h1, h2⟩ := ih b
      refine ⟨?_, ?_⟩
      · rw [Bool.eq_false_iff]
        intro hcon
        have := brBetter_trans _ _ _ hba hcon
        rw [h1] at this
        exact Bool.false_ne_true this
      · intro k hk
        rcases List.mem_cons.mp hk with hkb | hkt
        · subst hkb
          exact h1
        · exact h2 k hkt
    · rw [Bool.not_eq_true] at hba
      rw [hba, if_neg Bool.false_ne_true]
      obtain ⟨h1, h2⟩ := ih acc
      refine ⟨h1, ?_⟩
      intro k hk
      rcases List.mem_cons.mp hk with hkb | hkt
      · subst hkb
        rw [Bool.eq_false_iff]
        intro hcon
        have := brBetter_neg_trans _ _ _ hba hcon
        rw [h1] at this
        exact Bool.false_ne_true this
      · exact h2 k hkt

/-- The anchor index of a nonempty polygon is in bounds. -/
theorem bottomRight_lt (v : Polygon) (h : v ≠ []) : bottomRight v < v.length := by
  have hl : 1 ≤ v.length := List.length_pos.mpr h
  unfold bottomRight
  rcases brFold_mem v ((List.range v.length).drop 1) 0 with hm | hm
  · rw [hm]; omega
  · have := List.mem_range.mp (List.mem_of_mem_drop hm)
    exact this

/-- No vertex of the polygon is strictly better than the `makeCCW` anchor. -/
theorem bottomRight_opt (v : Polygon) :
    ∀ k < v.length, brBetter (nthP v k) (nthP v (bottomRight v)) = false := by
  intro k hk
  obtain ⟨h1, h2⟩ := brFold_opt v ((List.range v.length).drop 1) 0
  rcases Nat.eq_zero_or_pos k with hk0 | hkpos
  · subst hk0
    exact h1
  · refine h2 k ?_
    have hlen : v.length = (v.length - 1) + 1 := by omega
    rw [hlen, List.range_succ_eq_map]
    show k ∈ (List.range (v.length - 1)).map Nat.succ
    rw [List.mem_map]
    exact ⟨k - 1, List.mem_range.mpr (by omega), by omega⟩

/-- `nthP` as a defaulted get. -/
theorem nthP_eq_getD (l : List Point) : ∀ n, nthP l n = l.getD n zeroPt := by
  induction l with
  | nil => intro n; cases n <;> rfl
  | cons a t ih =>
    intro n
    cases n with
    | zero => rfl
    | succ m => exact ih m

/-- Reading the reversal at `i` reads the original at `length - 1 - i`. -/
theorem nthP_reverse (l : List Point) (i : ℕ) (h : i < l.length) :
    nthP l.reverse i = nthP l (l.length - 1 - i) := by
  rw [nthP_eq_getD, nthP_eq_getD, List.getD_eq_getElem?_getD, List.getD_eq_getElem?_getD,
    List.getElem?_reverse h]

/-- In-bounds nonnegative cyclic reads are plain reads. -/
theorem polyAt_coe (v : Polygon) (n : ℕ) (h : n < v.length) :
    polyAt v (n : ℤ) = nthP v n := by
  unfold polyAt polygonAt polygonAtIndex
  have h1 : ¬ ((n : ℤ) < 0) := by omega
  rw [if_neg h1]
  have h2 : (n : ℤ).tmod v.length = (n : ℤ) % (v.length : ℤ) :=
    Int.tmod_eq_emod (by omega) (by omega)
  have h3 : (n : ℤ) % (v.length : ℤ) = (n : ℤ) :=
    Int.emod_eq_of_lt (by omega) (by omega)
  rw [h2, h3]
  dsimp only
  rw [if_neg (by omega)]
  simp

/-- The cyclic read at index `length` wraps to index 0. -/
theorem polyAt_len (v : Polygon) (h : 1 ≤ v.length) :
    polyAt v (v.length : ℤ) = nthP v 0 := by
  have hidx : polygonAtIndex v.length (v.length : ℤ) = 0 := by
    unfold polygonAtIndex
    rw [if_neg (show ¬ ((v.length : ℤ) < 0) by omega), Int.tmod_self]
  unfold polyAt polygonAt
  simp only [hidx]
  rw [if_neg (by omega)]
  simp

/-- JavaScript's `-1 % n` is `-1` for `n ≥ 2`. -/
theorem tmod_neg_one (n : ℤ) (h : 2 ≤ n) : (-1 : ℤ).tmod n = -1 := by
  match n, h with
  | Int.ofNat (k + 1), h =>
    show (Int.negSucc 0).tmod (Int.ofNat (k + 1)) = -1
    have h1 : (Int.negSucc 0).tmod (Int.ofNat (k + 1)) = -Int.ofNat (Nat.succ 0 % (k + 1)) :=
      rfl
    rw [h1]
    simp only [Int.ofNat_eq_coe] at h
    have hk : 1 ≤ k := by omega
    have h2 : Nat.succ 0 % (k + 1) = 1 := Nat.mod_eq_of_lt (by omega)
    rw [h2]
    rfl

/-- The cyclic read at index `-1` wraps to the last vertex (for length ≥ 2). -/
theorem polyAt_neg_one (v : Polygon) (h : 2 ≤ v.length) :
    polyAt v (-1) = nthP v (v.length - 1) := by
  have hidx : polygonAtIndex v.length (-1) = (v.length : ℤ) - 1 := by
    unfold polygonAtIndex
    rw [if_pos (show (-1 : ℤ) < 0 by omega), tmod_neg_one (v.length : ℤ) (by omega)]
    ring
  unfold polyAt polygonAt
  simp only [hidx]
  rw [if_neg (by omega)]
  have h3 : ((v.length : ℤ) - 1).toNat = v.length - 1 := by omega
  rw [h3]
  simp

/-- The cyclic read of the empty polygon is the zero point. -/
theorem polyAt_nil (i : ℤ) : polyAt [] i = zeroPt := by
  unfold polyAt polygonAt
  dsimp only
  rw [if_pos]
  · rfl
  · simp only [List.length_nil, Nat.cast_zero]
    omega

/-- Reading the reversal at an in-bounds nonnegative cyclic index. -/
theorem polyAt_reverse_coe (v : Polygon) (n : ℕ) (h : n < v.length) :
    polyAt v.reverse (n : ℤ) = nthP v (v.length - 1 - n) := by
  rw [polyAt_coe v.reverse n (by rw [List.length_reverse]; exact h), nthP_reverse v n h]

/-- Cyclic reads of a one-vertex polygon: negative indices are out of bounds
(the JS index computes to 1), nonnegative indices hit the single vertex. -/
theorem polyAt_one_elem (a : Point) (i : ℤ) :
    polyAt [a] i = if i < 0 then zeroPt else a := by
  unfold polyAt polygonAt polygonAtIndex
  simp only [List.length_cons, List.length_nil, Nat.zero_add, Nat.cast_one, Int.tmod_one,
    Nat.cast_ofNat]
  by_cases hi : i < 0
  · rw [if_pos hi, if_pos (by norm_num), if_pos hi]
    rfl
  · rw [if_neg hi, if_neg (by norm_num), if_neg hi]
    rfl

/-- A polygon whose anchor turn has nonzero area has at least two vertices. -/
theorem anchor_nonzero_length (v : Polygon)
    (hnd : triangleArea (polyAt v ((bottomRight v : ℤ) - 1)) (polyAt v (bottomRight v))
      (polyAt v ((bottomRight v : ℤ) + 1)) ≠ 0) : 2 ≤ v.length := by
  rcases v with _ | ⟨a, _ | ⟨b, t⟩⟩
  · exfalso
    apply hnd
    rw [polyAt_nil, polyAt_nil, polyAt_nil]
    exact triangleArea_degenerate _ _
  · exfalso
    apply hnd
    have hbr : bottomRight [a] = 0 := rfl
    rw [hbr]
    have e1 : polyAt [a] (((0 : ℕ) : ℤ) - 1) = zeroPt := by
      rw [polyAt_one_elem]
      norm_num
    have e2 : polyAt [a] ((0 : ℕ) : ℤ) = a := by
      rw [polyAt_one_elem]
      norm_num
    have e3 : polyAt [a] (((0 : ℕ) : ℤ) + 1) = a := by
      rw [polyAt_one_elem]
      norm_num
    rw [e1, e2, e3]
    exact triangleArea_degenerate zeroPt a
  · simp only [List.length_cons]
    omega

/-- The anchor of the reversal is the mirrored anchor, given a unique
bottom-right extreme. -/
theorem bottomRight_reverse (v : Polygon) (hvne : v ≠ [])
    (huniq : ∀ i < v.length, i ≠ bottomRight v →
      brBetter (nthP v (bottomRight v)) (nthP v i) = true) :
    bottomRight v.reverse = v.length - 1 - bottomRight v := by
  have hbr : bottomRight v < v.length := bottomRight_lt v hvne
  have hlenrev : v.reverse.length = v.length := List.length_reverse v
  have hb'lt : bottomRight v.reverse < v.length := by
    rw [← hlenrev]
    exact bottomRight_lt v.reverse (by simp [hvne])
  by_contra hne
  have hopt := bottomRight_opt v.reverse (v.length - 1 - bottomRight v)
    (by rw [hlenrev]; omega)
  have hidx : v.length - 1 - bottomRight v.reverse ≠ bottomRight v := by omega
  have hu := huniq (v.length - 1 - bottomRight v.reverse) (by omega) hidx
  have e1 : nthP v.reverse (bottomRight v.reverse) =
      nthP v (v.length - 1 - bottomRight v.reverse) := nthP_reverse v _ hb'lt
  have e2 : nthP v.reverse (v.length - 1 - bottomRight v) = nthP v (bottomRight v) := by
    rw [nthP_reverse v _ (by omega)]
    congr 1
    omega
  rw [← e2, ← e1] at hu
  rw [hu] at hopt
  exact Bool.noConfusion hopt

/-- C8, amended: `makeCCW` applied twice returns `false` the second time and
leaves the vertex order unchanged, provided the bottom-right anchor vertex is
the unique extreme of the polygon and the turn at the anchor is
non-degenerate (nonzero `triangleArea`).  Degenerate polygons (e.g. three
collinear vertices) reverse on every call. -/
theorem makeCCW_twice (v : Polygon)
    (huniq : ∀ i < v.length, i ≠ bottomRight v →
      brBetter (nthP v (bottomRight v)) (nthP v i) = true)
    (hnd : triangleArea (polyAt v ((bottomRight v : ℤ) - 1)) (polyAt v (bottomRight v))
      (polyAt v ((bottomRight v : ℤ) + 1)) ≠ 0) :
    (makeCCW (makeCCW v).2).1 = false ∧ (makeCCW (makeCCW v).2).2 = (makeCCW v).2 := by
  by_cases hfirst : isLeft (polyAt v ((bottomRight v : ℤ) - 1)) (polyAt v (bottomRight v))
      (polyAt v ((bottomRight v : ℤ) + 1)) = true
  · have h1 : makeCCW v = (false, v) := by
      unfold makeCCW
      rw [if_neg (by simp [hfirst])]
    rw [h1]
    constructor
    · show (makeCCW v).1 = false
      rw [h1]
    · show (makeCCW v).2 = (false, v).2
      rw [h1]
  · have hlen : 2 ≤ v.length := anchor_nonzero_length v hnd
    have hvne : v ≠ [] := by
      intro hv
      rw [hv] at hlen
      simp at hlen
    have hbr : bottomRight v < v.length := bottomRight_lt v hvne
    have hlenrev : v.reverse.length = v.length := List.length_reverse v
    have hbr' : bottomRight v.reverse = v.length - 1 - bottomRight v :=
      bottomRight_reverse v hvne huniq
    have harea_le : triangleArea (polyAt v ((bottomRight v : ℤ) - 1))
        (polyAt v (bottomRight v)) (polyAt v ((bottomRight v : ℤ) + 1)) ≤ 0 := by
      rw [Bool.not_eq_true] at hfirst
      unfold isLeft at hfirst
      simpa using hfirst
    have harea_lt : triangleArea (polyAt v ((bottomRight v : ℤ) - 1))
        (polyAt v (bottomRight v)) (polyAt v ((bottomRight v : ℤ) + 1)) < 0 :=
      lt_of_le_of_ne harea_le hnd
    have hrev : makeCCW v = (true, v.reverse) := by
      unfold makeCCW polygonReverse
      rw [if_pos hfirst]
    obtain ⟨r1, r2, r3⟩ :
        polyAt v.reverse ((bottomRight v.reverse : ℤ) - 1) =
          polyAt v ((bottomRight v : ℤ) + 1) ∧
        polyAt v.reverse (bottomRight v.reverse) = polyAt v (bottomRight v) ∧
        polyAt v.reverse ((bottomRight v.reverse : ℤ) + 1) =
          polyAt v ((bottomRight v : ℤ) - 1) := by
      rcases Nat.eq_zero_or_pos (bottomRight v) with hbr0 | hbrpos
      · -- anchor at 0: mirrored anchor at length - 1
        rw [hbr', hbr0]
        have hc1 : ((v.length - 1 - 0 : ℕ) : ℤ) - 1 = ((v.length - 2 : ℕ) : ℤ) := by omega
        have hc3 : ((v.length - 1 - 0 : ℕ) : ℤ) + 1 = ((v.length : ℕ) : ℤ) := by omega
        refine ⟨?_, ?_, ?_⟩
        · rw [hc1, polyAt_reverse_coe v (v.length - 2) (by omega)]
          have hc2 : ((0 : ℕ) : ℤ) + 1 = ((1 : ℕ) : ℤ) := by omega
          rw [hc2, polyAt_coe v 1 (by omega)]
          congr 1
          omega
        · rw [polyAt_reverse_coe v (v.length - 1 - 0) (by omega),
            polyAt_coe v 0 (by omega)]
          congr 1
          omega
        · rw [hc3, ← hlenrev, polyAt_len v.reverse (by omega),
            nthP_reverse v 0 (by omega)]
          have hc4 : ((0 : ℕ) : ℤ) - 1 = (-1 : ℤ) := by omega
          rw [hc4, polyAt_neg_one v (by omega)]
          congr 1
      · rcases Nat.lt_or_ge (bottomRight v) (v.length - 1) with hbrtop | hbrtop
        · -- anchor strictly inside: mirrored anchor strictly inside
          rw [hbr']
          have hc1 : ((v.length - 1 - bottomRight v : ℕ) : ℤ) - 1 =
              ((v.length - 2 - bottomRight v : ℕ) : ℤ) := by omega
          have hc3 : ((v.length - 1 - bottomRight v : ℕ) : ℤ) + 1 =
              ((v.length - bottomRight v : ℕ) : ℤ) := by omega
          have hc2 : ((bottomRight v : ℕ) : ℤ) + 1 = ((bottomRight v + 1 : ℕ) : ℤ) := by
            omega
          have hc4 : ((bottomRight v : ℕ) : ℤ) - 1 = ((bottomRight v - 1 : ℕ) : ℤ) := by
            omega
          refine ⟨?_, ?_, ?_⟩
          · rw [hc1, polyAt_reverse_coe v (v.length - 2 - bottomRight v) (by omega),
              hc2, polyAt_coe v (bottomRight v + 1) (by omega)]
            congr 1
            omega
          · rw [polyAt_reverse_coe v (v.length - 1 - bottomRight v) (by omega),
              polyAt_coe v (bottomRight v) (by omega)]
            congr 1
            omega
          · rw [hc3, polyAt_reverse_coe v (v.length - bottomRight v) (by omega),
              hc4, polyAt_coe v (bottomRight v - 1) (by omega)]
            congr 1
            omega
        · -- anchor at length - 1: mirrored anchor at 0
          have hbrtop' : bottomRight v = v.length - 1 := by omega
          rw [hbr', hbrtop']
          have hc1 : ((v.length - 1 - (v.length - 1) : ℕ) : ℤ) - 1 = (-1 : ℤ) := by omega
          have hc3 : ((v.length - 1 - (v.length - 1) : ℕ) : ℤ) + 1 = ((1 : ℕ) : ℤ) := by
            omega
          have hc2 : ((v.length - 1 : ℕ) : ℤ) + 1 = ((v.length : ℕ) : ℤ) := by omega
          have hc4 : ((v.length - 1 : ℕ) : ℤ) - 1 = ((v.length - 2 : ℕ) : ℤ) := by omega
          refine ⟨?_, ?_, ?_⟩
          · rw [hc1, polyAt_neg_one v.reverse (by rw [hlenrev]; omega), hlenrev,
              nthP_reverse v (v.length - 1) (by omega), hc2, polyAt_len v (by omega)]
            congr 1
            omega
          · rw [polyAt_reverse_coe v (v.length - 1 - (v.length - 1)) (by omega),
              polyAt_coe v (v.length - 1) (by omega)]
            congr 1
            omega
          · rw [hc3, polyAt_reverse_coe v 1 (by omega), hc4,
              polyAt_coe v (v.length - 2) (by omega)]
            congr 1
    rw [hrev]
    have hleft' : isLeft (polyAt v.reverse ((bottomRight v.reverse : ℤ) - 1))
        (polyAt v.reverse (bottomRight v.reverse))
        (polyAt v.reverse ((bottomRight v.reverse : ℤ) + 1)) = true := by
      rw [r1, r2, r3]
      unfold isLeft
      rw [triangleArea_rev]
      simp only [decide_eq_true_eq]
      linarith [harea_lt]
    constructor
    · show (makeCCW v.reverse).1 = false
      unfold makeCCW
      rw [if_neg (by simp [hleft'])]
    · show (makeCCW v.reverse).2 = v.reverse
      unfold makeCCW
      rw [if_neg (by simp [hleft'])]

/-- C8 counterexample: on the degenerate collinear triple the second call to
`makeCCW` again returns `true` and again reverses the vertex order, refuting
the claim as stated for every polygon. -/
theorem makeCCW_twice_counterexample :
    (makeCCW (makeCCW collinearTriple).2).1 = true ∧
      (makeCCW (makeCCW collinearTriple).2).2 ≠ (makeCCW collinearTriple).2 := by
  constructor
  · decide
  · decide

/-- Witness: the amended C8 statement holds at the clockwise unit square. -/
theorem makeCCW_twice_witness :
    (makeCCW (makeCCW cwSquare).2).1 = false ∧
      (makeCCW (makeCCW cwSquare).2).2 = (makeCCW cwSquare).2 :=
  makeCCW_twice cwSquare (by decide) (by decide)

end Theorems

end PolyDecomp
